import Mathlib

/-!
Stock-Dashboard: the WebSocket price server (`backend/server.js`)

A shallow embedding of the server's three event handlers (`connection`,
`message`, `close`) and of the one-second price updater, and of the bounded
price history kept by the client (`frontend/src/App.js`), followed by the
properties proved about them.

Modelling conventions

* JavaScript values that reach the handlers are values of `JsVal`.  A number is
  carried as the rational it is (every finite double is one); each arithmetic
  result and each numeral read is rounded to the nearest double by `toDouble`.
* `JSON.parse` is a parameter `parse : String → Option JsVal` (`none` when it
  throws `SyntaxError`).
* `ws.send(JSON.stringify(o))` is recorded as the pair `(ws, o)` in the list of
  messages emitted by the handler.
* A socket `ws` is identified by a natural number; `ws.readyState`, the clock
  `Date.now()` and `Math.random()` are read from the environment and appear as
  parameters, indexed by the order of the calls inside one handler run.
-/

namespace StockDashboard

/-! ## JavaScript values -/

/-- A JavaScript value as produced by `JSON.parse`, by a property read
(`undefined` for an absent property) or by an object literal of the server. -/
inductive JsVal where
  | undefined : JsVal
  | null : JsVal
  | bool (b : Bool) : JsVal
  | num (q : ℚ) : JsVal
  | str (s : String) : JsVal
  | arr (items : List JsVal) : JsVal
  | obj (fields : List (String × JsVal)) : JsVal

/-- Property read `v.key` for the keys the server reads (`type`, `email`,
`ticker`): throws `TypeError` (`none`) on `null` and `undefined`, gives the own
property of an object, and `undefined` otherwise (no prototype defines one of
these keys). -/
def getProp (v : JsVal) (key : String) : Option JsVal :=
  match v with
  | .undefined => none
  | .null => none
  | .obj fields => some ((fields.lookup key).getD .undefined)
  | _ => some .undefined

/-- Truthiness (`ToBoolean`): `undefined`, `null`, `false`, `0` and `""` are
falsy, everything else is truthy. -/
def truthy (v : JsVal) : Bool :=
  match v with
  | .undefined => false
  | .null => false
  | .bool b => b
  | .num q => decide (q ≠ 0)
  | .str s => decide (s ≠ "")
  | .arr _ => true
  | .obj _ => true

/-- The expression `a || b`. -/
def jsOr (a b : JsVal) : JsVal := if truthy a then a else b

/-- Strict equality `v === 'lit'` against a string literal. -/
def strictEqStr (v : JsVal) (lit : String) : Bool :=
  match v with
  | .str s => decide (s = lit)
  | _ => false

/-- The comparison `SameValueZero` used by `Array.prototype.includes` and by
`Set`.  Arrays and objects are compared by reference; the value looked up is
always a part of the freshly parsed message, which is identical to no stored
object, so such comparisons are `false`. -/
def sameValueZero (a b : JsVal) : Bool :=
  match a, b with
  | .undefined, .undefined => true
  | .null, .null => true
  | .bool x, .bool y => decide (x = y)
  | .num x, .num y => decide (x = y)
  | .str x, .str y => decide (x = y)
  | _, _ => false

/-! ## Constants and state -/

/-- The list `SUPPORTED` of the server. -/
def SUPPORTED : List String := ["GOOG", "TSLA", "AMZN", "META", "NVDA"]

/-- The call `SUPPORTED.includes(v)`. -/
def supportedIncludes (v : JsVal) : Bool :=
  SUPPORTED.any (fun t => sameValueZero (.str t) v)

/-- The constant `WebSocket.OPEN`. -/
def OPEN : Nat := 1

/-- The record `{ email, subs }` kept for a client; `subs` is a `Set`, held as
the list of its members in insertion order. -/
structure ClientMeta where
  email : JsVal
  subs : List JsVal

/-- The call `subs.add(v)`: `v` is appended unless already a member. -/
def setAdd (subs : List JsVal) (v : JsVal) : List JsVal :=
  if subs.any (fun x => sameValueZero x v) then subs else subs ++ [v]

/-- The call `subs.delete(v)`: the member equal to `v` is removed. -/
def setDelete (subs : List JsVal) (v : JsVal) : List JsVal :=
  subs.filter (fun x => !sameValueZero x v)

/-- The call `subs.has(v)`. -/
def setHas (subs : List JsVal) (v : JsVal) : Bool :=
  subs.any (fun x => sameValueZero x v)

/-- The `Map` named `clients`, keyed by socket, in insertion order. -/
abbrev Clients := List (Nat × ClientMeta)

/-- The call `clients.get(ws)`. -/
def mapGet (clients : Clients) (ws : Nat) : Option ClientMeta :=
  match clients with
  | [] => none
  | (k, m) :: rest => if k = ws then some m else mapGet rest ws

/-- The call `clients.set(ws, m)`: replaces the value of an existing key in
place, appends a new key. -/
def mapSet (clients : Clients) (ws : Nat) (m : ClientMeta) : Clients :=
  match clients with
  | [] => [(ws, m)]
  | (k, old) :: rest => if k = ws then (k, m) :: rest else (k, old) :: mapSet rest ws m

/-- The call `clients.delete(ws)`. -/
def mapDelete (clients : Clients) (ws : Nat) : Clients :=
  clients.filter (fun e => decide (e.1 ≠ ws))

/-- The object `prices`, read as `prices[t]`. -/
abbrev Prices := String → ℚ

/-- The assignment `prices[t] = v`. -/
def setPrice (prices : Prices) (t : String) (v : ℚ) : Prices :=
  fun k => if k = t then v else prices k

/-- The server state: the price table and the client map. -/
structure Server where
  prices : Prices
  clients : Clients

/-- A message handed to `ws.send`: the socket and the object serialised. -/
abbrev Out := Nat × JsVal

/-! ## Message objects built by the server -/

def loginAck (email : JsVal) : JsVal :=
  .obj [("type", .str "login_ack"), ("email", email)]

def supportedMsg : JsVal :=
  .obj [("type", .str "supported"), ("supported", .arr (SUPPORTED.map .str))]

def subscribedMsg (ticker : JsVal) : JsVal :=
  .obj [("type", .str "subscribed"), ("ticker", ticker)]

def unsubscribedMsg (ticker : JsVal) : JsVal :=
  .obj [("type", .str "unsubscribed"), ("ticker", ticker)]

def errorMsg (message : String) : JsVal :=
  .obj [("type", .str "error"), ("message", .str message)]

def priceUpdatesMsg (updates : List JsVal) : JsVal :=
  .obj [("type", .str "price_updates"), ("updates", .arr updates)]

/-! ## The handlers of a connection -/

/-- The handler of `wss.on('connection')`: registers a fresh record. -/
def onConnection (s : Server) (ws : Nat) : Server :=
  { s with clients := mapSet s.clients ws { email := .null, subs := [] } }

/-- The statements of the `try` block after `JSON.parse`, `none` when one of
them throws (a property read on `null`, or a field access on the `undefined`
returned by `clients.get(ws)` for an unregistered socket). -/
def tryBody (clients : Clients) (ws : Nat) (msg : JsVal) : Option (Clients × List Out) :=
  match getProp msg "type" with
  | none => none
  | some ty =>
    if strictEqStr ty "login" then
      match mapGet clients ws, getProp msg "email" with
      | some m, some email =>
        some (mapSet clients ws { m with email := jsOr email .null }, [(ws, loginAck email)])
      | _, _ => none
    else if strictEqStr ty "get_supported" then
      some (clients, [(ws, supportedMsg)])
    else if strictEqStr ty "subscribe" then
      match getProp msg "ticker" with
      | none => none
      | some ticker =>
        if supportedIncludes ticker then
          match mapGet clients ws with
          | none => none
          | some m =>
            some (mapSet clients ws { m with subs := setAdd m.subs ticker },
              [(ws, subscribedMsg ticker)])
        else
          some (clients, [(ws, errorMsg "Unsupported ticker")])
    else if strictEqStr ty "unsubscribe" then
      match mapGet clients ws, getProp msg "ticker" with
      | some m, some ticker =>
        some (mapSet clients ws { m with subs := setDelete m.subs ticker },
          [(ws, unsubscribedMsg ticker)])
      | _, _ => none
    else
      some (clients, [(ws, errorMsg "Unknown message type")])

/-- The handler of `ws.on('message')`: the `try` block, and the `catch` block
that answers `Invalid JSON` whatever was thrown. -/
def onMessage (parse : String → Option JsVal) (s : Server) (ws : Nat) (raw : String) :
    Server × List Out :=
  match parse raw with
  | none => (s, [(ws, errorMsg "Invalid JSON")])
  | some msg =>
    match tryBody s.clients ws msg with
    | none => (s, [(ws, errorMsg "Invalid JSON")])
    | some (clients, out) => ({ s with clients := clients }, out)

/-- The handler of `ws.on('close')`. -/
def onClose (s : Server) (ws : Nat) : Server :=
  { s with clients := mapDelete s.clients ws }

/-! ## Prices and the one-second updater -/

/-- The integer nearest to `x`, the even one on a tie (`roundTiesToEven`). -/
def roundHalfEven (x : ℚ) : ℤ :=
  if x - ⌊x⌋ < 1 / 2 then ⌊x⌋
  else if 1 / 2 < x - ⌊x⌋ then ⌊x⌋ + 1
  else if ⌊x⌋ % 2 = 0 then ⌊x⌋ else ⌊x⌋ + 1

/-- The binary exponent of the spacing of the doubles around `x ≥ 0`: 52 below
the exponent of `x`, the exponent being held at `-1022` in the subnormal
range. -/
def quantumExp (x : ℚ) : ℤ := max (Int.log 2 x) (-1022) - 52

/-- The double nearest to the magnitude `x ≥ 0`. -/
def roundMagnitude (x : ℚ) : ℚ :=
  (roundHalfEven (x / 2 ^ quantumExp x) : ℚ) * 2 ^ quantumExp x

/-- The Number value of the real `x`: the nearest binary64 value, ties to the
even significand, the sign carried apart.  Every arithmetic result of the
server and every numeral it reads goes through this rounding.  Overflow to
`Infinity` is left out: it needs a magnitude of `2^1024`, and a price moves by
about `1` per second from a seed of at most `1000`. -/
def toDouble (x : ℚ) : ℚ := if x < 0 then -roundMagnitude (-x) else roundMagnitude x

/-- A binary64 value: a significand of at most 53 bits times a power of two
not below the subnormal spacing `2^-1074`. -/
def IsDouble (x : ℚ) : Prop := ∃ m k : ℤ, |m| ≤ 2 ^ 53 ∧ -1074 ≤ k ∧ x = (m : ℚ) * 2 ^ k

/-- The decimal written by `x.toFixed(2)` for `|x| < 10^21`: `toFixed` takes
the sign off and picks the integer `n` with `n / 100` nearest to the exact
magnitude, the larger `n` on a tie. -/
def toFixed2 (x : ℚ) : ℚ :=
  if x < 0 then -((⌊(-x) * 100 + 1 / 2⌋ : ℤ) : ℚ) / 100
  else ((⌊x * 100 + 1 / 2⌋ : ℤ) : ℚ) / 100

/-- The expression `+x.toFixed(2)` on a double `x`: from `10^21` on `toFixed`
writes the number as `String(x)` does and the unary plus reads `x` back;
below, it writes the two-decimal numeral and the unary plus reads the double
nearest to it. -/
def readFixed2 (x : ℚ) : ℚ := if 10 ^ 21 ≤ |x| then x else toDouble (toFixed2 x)

/-- The seed `+(100 + Math.random()*900).toFixed(2)` for the draw `r`. -/
def seedPrice (r : ℚ) : ℚ := readFixed2 (toDouble (100 + toDouble (r * 900)))

/-- The new price `Math.max(0.01, +(p + change).toFixed(2))` with
`change = (Math.random() - 0.5) * 2` for the draw `r`; `0.01` is the double
that the numeral denotes. -/
def advance (r p : ℚ) : ℚ :=
  max (toDouble (1 / 100)) (readFixed2 (toDouble (p + toDouble (toDouble (r - 1 / 2) * 2))))

/-- The loop `forEach(t => prices[t] = seed)` over the tickers `ts`, the first
callback making call number `i` of `Math.random`. -/
def seedFrom (rand : Nat → ℚ) : Nat → List String → Prices → Prices
  | _, [], prices => prices
  | i, t :: ts, prices => seedFrom rand (i + 1) ts (setPrice prices t (seedPrice (rand i)))

/-- The loop `forEach(t => prices[t] = Math.max(...))` over the tickers `ts`,
the first callback making call number `i` of `Math.random`. -/
def advanceFrom (rand : Nat → ℚ) : Nat → List String → Prices → Prices
  | _, [], prices => prices
  | i, t :: ts, prices =>
    advanceFrom rand (i + 1) ts (setPrice prices t (advance (rand i) (prices t)))

/-- The entry `{ ticker: t, price: prices[t], ts: Date.now() }`. -/
def updateEntry (t : String) (price : ℚ) (ts : Nat) : JsVal :=
  .obj [("ticker", .str t), ("price", .num price), ("ts", .num (ts : ℚ))]

/-- The array `ts.map(t => entry)`, the first callback making call number `i`
of `Date.now`. -/
def updatesFrom (now : Nat → Nat) (prices : Prices) : Nat → List String → List JsVal
  | _, [] => []
  | i, t :: ts => updateEntry t (prices t) (now i) :: updatesFrom now prices (i + 1) ts

/-- The loop `clients.forEach((meta, ws) => ...)`: a socket whose `readyState`
is not `OPEN` is passed over, every other one is sent the payload. -/
def broadcast (readyState : Nat → Nat) (clients : Clients) (payload : JsVal) : List Out :=
  clients.filterMap (fun e => if readyState e.1 ≠ OPEN then none else some (e.1, payload))

/-- The price table after the first loop of the updater. -/
def tickPrices (rand : Nat → ℚ) (prices : Prices) : Prices :=
  advanceFrom rand 0 SUPPORTED prices

/-- The array `updatesAll` built by the updater. -/
def tickUpdates (rand : Nat → ℚ) (now : Nat → Nat) (prices : Prices) : List JsVal :=
  updatesFrom now (tickPrices rand prices) 0 SUPPORTED

/-- The callback of `setInterval`: advance every price, build `updatesAll`,
broadcast it. -/
def tick (rand : Nat → ℚ) (now : Nat → Nat) (readyState : Nat → Nat) (s : Server) :
    Server × List Out :=
  ({ s with prices := tickPrices rand s.prices },
    broadcast readyState s.clients (priceUpdatesMsg (tickUpdates rand now s.prices)))

/-- The state when the module has been loaded: every supported ticker seeded,
no client.  A key never assigned reads as `0` here; the server only reads the
supported keys. -/
def init (rand : Nat → ℚ) : Server :=
  { prices := seedFrom rand 0 SUPPORTED (fun _ => 0), clients := [] }

/-- The events the event loop serialises. -/
inductive Event where
  | connection (ws : Nat) : Event
  | message (ws : Nat) (raw : String) : Event
  | close (ws : Nat) : Event
  | tick (rand : Nat → ℚ) (now : Nat → Nat) (readyState : Nat → Nat) : Event

/-- One event handled: the next state and the messages sent. -/
def step (parse : String → Option JsVal) (s : Server) (e : Event) : Server × List Out :=
  match e with
  | .connection ws => (onConnection s ws, [])
  | .message ws raw => onMessage parse s ws raw
  | .close ws => (onClose s ws, [])
  | .tick rand now readyState => tick rand now readyState s

/-- The state after a sequence of events. -/
def run (parse : String → Option JsVal) (s : Server) (es : List Event) : Server :=
  es.foldl (fun acc e => (step parse acc e).1) s

/-- The number of messages of `out` sent to the socket `ws`. -/
def sentTo (ws : Nat) (out : List Out) : Nat :=
  (out.filter (fun o => decide (o.1 = ws))).length

/-- A two-decimal price: the double that a numeral with two decimals denotes,
that is, the double nearest to a whole number of hundredths. -/
def TwoDecimal (p : ℚ) : Prop := ∃ n : ℤ, p = toDouble ((n : ℚ) / 100)

/-- The sockets registered in `clients`, in the order of the `Map`. -/
def clientKeys (s : Server) : List Nat := s.clients.map Prod.fst

/-- A well-formed subscription set: no member twice, every member a supported
ticker. -/
def SupportedSet (subs : List JsVal) : Prop :=
  subs.Nodup ∧ ∀ x ∈ subs, ∃ name, name ∈ SUPPORTED ∧ x = .str name

/-! ## The client: bounded price histories (`frontend/src/App.js`) -/

/-- The constant `HISTORY_LEN` of the client. -/
def HISTORY_LEN : Nat := 100

/-- The helper `pushLimited(arr, item, n)`: the copy `[...arr, item]`, with its
first element shifted out when the copy is longer than `n`.  The caller passes
`HISTORY_LEN`, which is also the default of `n`. -/
def pushLimited {α : Type} (arr : List α) (item : α) (n : Nat) : List α :=
  let copy := arr ++ [item]
  if copy.length > n then copy.tail else copy

/-- A point `{ ts, price, label }` of a ticker's history. -/
structure HistoryPoint where
  ts : Nat
  price : ℚ
  label : String

/-- An entry `{ ticker, price, ts }` of a received `updates` array. -/
structure PriceUpdate where
  ticker : String
  price : ℚ
  ts : Nat

/-- The state `history`: an object from ticker to array, `none` for an absent
key. -/
abbrev History := String → Option (List HistoryPoint)

/-- The read `h[t] || []`. -/
def historyOf (h : History) (t : String) : List HistoryPoint := (h t).getD []

/-- The updater handed to `setHistory` for one update `u`: the object `h` with
the key `u.ticker` set to `pushLimited(h[u.ticker] || [], point, HISTORY_LEN)`;
`tsToLabel` is the clock formatting of the browser. -/
def historyUpdater (tsToLabel : Nat → String) (u : PriceUpdate) (h : History) : History :=
  fun k =>
    if k = u.ticker then
      some (pushLimited (historyOf h u.ticker)
        { ts := u.ts, price := u.price, label := tsToLabel u.ts } HISTORY_LEN)
    else h k

/-- The state `history` after `handlePriceUpdates(updates)`: the updaters of the
`forEach` applied in order. -/
def handlePriceUpdates (tsToLabel : Nat → String) (updates : List PriceUpdate) (h : History) :
    History :=
  updates.foldl (fun acc u => historyUpdater tsToLabel u acc) h

/-! ## Sample inputs -/

/-- The value of `JSON.parse` on the payloads used in the examples: the texts
listed, and `none` for the text `oops`, which is not JSON. -/
def sampleParse (raw : String) : Option JsVal :=
  if raw = "null" then some .null
  else if raw = "\x7b\"type\":\"ping\"\x7d" then
    some (.obj [("type", .str "ping")])
  else if raw = "\x7b\"type\":\"login\",\"email\":\"\"\x7d" then
    some (.obj [("type", .str "login"), ("email", .str "")])
  else if raw = "\x7b\"type\":\"login\",\"email\":\"ann@example.org\"\x7d" then
    some (.obj [("type", .str "login"), ("email", .str "ann@example.org")])
  else if raw = "\x7b\"type\":\"subscribe\",\"ticker\":\"XOM\"\x7d" then
    some (.obj [("type", .str "subscribe"), ("ticker", .str "XOM")])
  else if raw = "\x7b\"type\":\"subscribe\",\"ticker\":\"GOOG\"\x7d" then
    some (.obj [("type", .str "subscribe"), ("ticker", .str "GOOG")])
  else if raw = "\x7b\"type\":\"unsubscribe\",\"ticker\":\"GOOG\"\x7d" then
    some (.obj [("type", .str "unsubscribe"), ("ticker", .str "GOOG")])
  else none

/-- A server with one client, socket `7`, just connected. -/
def sampleServer : Server :=
  { prices := fun _ => 100, clients := [(7, { email := .null, subs := [] })] }

/-- The same server after socket `7` has logged in and subscribed to `GOOG`. -/
def sampleServerSubscribed : Server :=
  { prices := fun _ => 100,
    clients := [(7, { email := .str "ann@example.org", subs := [.str "GOOG"] })] }

/-- A server with two clients: socket `7` just connected, socket `8` logged in
and subscribed to `TSLA`. -/
def sampleServerTwo : Server :=
  { prices := fun _ => 100,
    clients := [(7, { email := .null, subs := [] }),
      (8, { email := .str "bob@example.org", subs := [.str "TSLA"] })] }

/-! ## Lemmas on values, sets and the client map -/

theorem supportedIncludes_iff (v : JsVal) :
    supportedIncludes v = true ↔ ∃ name, name ∈ SUPPORTED ∧ v = .str name := by
  unfold supportedIncludes
  rw [List.any_eq_true]
  constructor
  · rintro ⟨name, hmem, h⟩
    refine ⟨name, hmem, ?_⟩
    cases v <;> simp [sameValueZero] at h
    rw [h]
  · rintro ⟨name, hmem, rfl⟩
    exact ⟨name, hmem, by simp [sameValueZero]⟩

theorem sameValueZero_str_self (name : String) :
    sameValueZero (.str name) (.str name) = true := by
  simp [sameValueZero]

theorem mapGet_mapSet_self (clients : Clients) (ws : Nat) (m : ClientMeta) :
    mapGet (mapSet clients ws m) ws = some m := by
  induction clients with
  | nil => simp [mapSet, mapGet]
  | cons e rest ih =>
    obtain ⟨k, old⟩ := e
    by_cases h : k = ws
    · simp [mapSet, mapGet, h]
    · simp [mapSet, mapGet, h, ih]

theorem mapGet_mapSet_other (clients : Clients) (ws other : Nat) (m : ClientMeta)
    (h : other ≠ ws) : mapGet (mapSet clients ws m) other = mapGet clients other := by
  induction clients with
  | nil => simp [mapSet, mapGet, Ne.symm h]
  | cons e rest ih =>
    obtain ⟨k, old⟩ := e
    by_cases hk : k = ws
    · subst hk
      simp [mapSet, mapGet, Ne.symm h]
    · by_cases hko : k = other
      · subst hko
        simp [mapSet, mapGet, hk]
      · simp [mapSet, mapGet, hk, hko, ih]

theorem mapSet_same (clients : Clients) (ws : Nat) (m : ClientMeta)
    (h : mapGet clients ws = some m) : mapSet clients ws m = clients := by
  induction clients with
  | nil => simp [mapGet] at h
  | cons e rest ih =>
    obtain ⟨k, old⟩ := e
    by_cases hk : k = ws
    · simp [mapGet, hk] at h
      simp [mapSet, hk, h]
    · simp [mapGet, hk] at h
      simp [mapSet, hk, ih h]

theorem mapSet_mapSet (clients : Clients) (ws : Nat) (m m' : ClientMeta) :
    mapSet (mapSet clients ws m) ws m' = mapSet clients ws m' := by
  induction clients with
  | nil => simp [mapSet]
  | cons e rest ih =>
    obtain ⟨k, old⟩ := e
    by_cases hk : k = ws
    · simp [mapSet, hk]
    · simp [mapSet, hk, ih]

theorem setHas_setAdd_str (subs : List JsVal) (name : String) :
    setHas (setAdd subs (.str name)) (.str name) = true := by
  unfold setAdd setHas
  by_cases h : subs.any (fun x => sameValueZero x (.str name)) = true
  · simp only [h, if_true]
  · simp [h, sameValueZero_str_self]

theorem setAdd_of_setHas (subs : List JsVal) (v : JsVal) (h : setHas subs v = true) :
    setAdd subs v = subs := by
  unfold setHas at h
  simp only [setAdd, h, if_true]

theorem setHas_setDelete (subs : List JsVal) (v : JsVal) :
    setHas (setDelete subs v) v = false := by
  unfold setHas setDelete
  induction subs with
  | nil => rfl
  | cons x rest ih =>
    by_cases hx : sameValueZero x v = true
    · simp [List.filter_cons, hx, ih]
    · simp only [Bool.not_eq_true] at hx
      simp [List.filter_cons, hx, ih]

theorem setDelete_setDelete (subs : List JsVal) (v : JsVal) :
    setDelete (setDelete subs v) v = setDelete subs v := by
  unfold setDelete
  rw [List.filter_filter]
  simp

theorem mem_setDelete (subs : List JsVal) (v x : JsVal) :
    x ∈ setDelete subs v ↔ x ∈ subs ∧ sameValueZero x v = false := by
  simp [setDelete, List.mem_filter]

/-! ## The message handler, branch by branch -/

theorem onMessage_undecodable (parse : String → Option JsVal) (s : Server) (ws : Nat)
    (raw : String) (hparse : parse raw = none) :
    onMessage parse s ws raw = (s, [(ws, errorMsg "Invalid JSON")]) := by
  simp [onMessage, hparse]

theorem onMessage_login (parse : String → Option JsVal) (s : Server) (ws : Nat) (raw : String)
    (msg e : JsVal) (m : ClientMeta) (hreg : mapGet s.clients ws = some m)
    (hparse : parse raw = some msg) (htype : getProp msg "type" = some (.str "login"))
    (hemail : getProp msg "email" = some e) :
    onMessage parse s ws raw =
      ({ s with clients := mapSet s.clients ws { m with email := jsOr e .null } },
        [(ws, loginAck e)]) := by
  simp [onMessage, hparse, tryBody, htype, strictEqStr, hreg, hemail]

theorem onMessage_subscribe_supported (parse : String → Option JsVal) (s : Server) (ws : Nat)
    (raw : String) (msg t : JsVal) (m : ClientMeta) (hreg : mapGet s.clients ws = some m)
    (hparse : parse raw = some msg) (htype : getProp msg "type" = some (.str "subscribe"))
    (hticker : getProp msg "ticker" = some t) (hsup : supportedIncludes t = true) :
    onMessage parse s ws raw =
      ({ s with clients := mapSet s.clients ws { m with subs := setAdd m.subs t } },
        [(ws, subscribedMsg t)]) := by
  simp [onMessage, hparse, tryBody, htype, strictEqStr, hreg, hticker, hsup]

theorem onMessage_subscribe_unsupported (parse : String → Option JsVal) (s : Server) (ws : Nat)
    (raw : String) (msg t : JsVal)
    (hparse : parse raw = some msg) (htype : getProp msg "type" = some (.str "subscribe"))
    (hticker : getProp msg "ticker" = some t) (hsup : supportedIncludes t = false) :
    onMessage parse s ws raw = (s, [(ws, errorMsg "Unsupported ticker")]) := by
  simp [onMessage, hparse, tryBody, htype, strictEqStr, hticker, hsup]

theorem onMessage_unsubscribe (parse : String → Option JsVal) (s : Server) (ws : Nat)
    (raw : String) (msg t : JsVal) (m : ClientMeta) (hreg : mapGet s.clients ws = some m)
    (hparse : parse raw = some msg) (htype : getProp msg "type" = some (.str "unsubscribe"))
    (hticker : getProp msg "ticker" = some t) :
    onMessage parse s ws raw =
      ({ s with clients := mapSet s.clients ws { m with subs := setDelete m.subs t } },
        [(ws, unsubscribedMsg t)]) := by
  simp [onMessage, hparse, tryBody, htype, strictEqStr, hreg, hticker]

theorem strictEqStr_iff (v : JsVal) (lit : String) :
    strictEqStr v lit = true ↔ v = .str lit := by
  cases v <;> simp [strictEqStr]

theorem onMessage_unknown_kind (parse : String → Option JsVal) (s : Server) (ws : Nat)
    (raw : String) (msg : JsVal) (hparse : parse raw = some msg)
    (hkind : ∀ kind ∈ ["login", "get_supported", "subscribe", "unsubscribe"],
      getProp msg "type" ≠ some (.str kind)) :
    onMessage parse s ws raw = (s, [(ws, errorMsg "Invalid JSON")]) ∨
      onMessage parse s ws raw = (s, [(ws, errorMsg "Unknown message type")]) := by
  cases hty : getProp msg "type" with
  | none => left; simp [onMessage, hparse, tryBody, hty]
  | some ty =>
    right
    have h1 : strictEqStr ty "login" = false := by
      rw [← Bool.not_eq_true, strictEqStr_iff]
      intro h; exact hkind "login" (by simp) (by rw [hty, h])
    have h2 : strictEqStr ty "get_supported" = false := by
      rw [← Bool.not_eq_true, strictEqStr_iff]
      intro h; exact hkind "get_supported" (by simp) (by rw [hty, h])
    have h3 : strictEqStr ty "subscribe" = false := by
      rw [← Bool.not_eq_true, strictEqStr_iff]
      intro h; exact hkind "subscribe" (by simp) (by rw [hty, h])
    have h4 : strictEqStr ty "unsubscribe" = false := by
      rw [← Bool.not_eq_true, strictEqStr_iff]
      intro h; exact hkind "unsubscribe" (by simp) (by rw [hty, h])
    simp [onMessage, hparse, tryBody, hty, h1, h2, h3, h4]

/-! ## Subscription handling (C1, C2, C3) -/

/-- C1: a `subscribe` message whose ticker is not a member of `SUPPORTED` is
answered with exactly the error `Unsupported ticker`, and the server state, in
particular the record of the session (identity and subscription set), is left
as it was. -/
theorem subscribe_unsupported_rejected (parse : String → Option JsVal) (s : Server) (ws : Nat)
    (raw : String) (msg t : JsVal)
    (hparse : parse raw = some msg) (htype : getProp msg "type" = some (.str "subscribe"))
    (hticker : getProp msg "ticker" = some t)
    (hunsup : ∀ name ∈ SUPPORTED, t ≠ .str name) :
    onMessage parse s ws raw = (s, [(ws, errorMsg "Unsupported ticker")]) ∧
      mapGet (onMessage parse s ws raw).1.clients ws = mapGet s.clients ws := by
  have hsup : supportedIncludes t = false := by
    rw [← Bool.not_eq_true, supportedIncludes_iff]
    rintro ⟨name, hmem, h⟩
    exact hunsup name hmem h
  have h := onMessage_subscribe_unsupported parse s ws raw msg t hparse htype hticker hsup
  exact ⟨h, by rw [h]⟩

theorem subscribe_unsupported_rejected_witness :
    onMessage sampleParse sampleServer 7 "\x7b\"type\":\"subscribe\",\"ticker\":\"XOM\"\x7d"
        = (sampleServer, [(7, errorMsg "Unsupported ticker")]) ∧
      mapGet (onMessage sampleParse sampleServer 7
        "\x7b\"type\":\"subscribe\",\"ticker\":\"XOM\"\x7d").1.clients 7
        = mapGet sampleServer.clients 7 :=
  subscribe_unsupported_rejected sampleParse sampleServer 7 _
    (.obj [("type", .str "subscribe"), ("ticker", .str "XOM")]) (.str "XOM")
    (by simp [sampleParse]) (by simp [getProp, List.lookup]) (by simp [getProp, List.lookup])
    (by simp [SUPPORTED])

/-- C2: for a registered session and a supported ticker, `subscribe` is
answered with `subscribed` for that ticker and puts the ticker in the set; a
following `unsubscribe` takes it out of the set; and a second `subscribe`
leaves the state reached by the first one unchanged. -/
theorem subscribe_unsubscribe_round_trip (parse : String → Option JsVal) (s : Server)
    (ws : Nat) (m : ClientMeta) (name rawSub rawUnsub : String) (msgSub msgUnsub : JsVal)
    (hreg : mapGet s.clients ws = some m) (hname : name ∈ SUPPORTED)
    (hparseSub : parse rawSub = some msgSub)
    (htypeSub : getProp msgSub "type" = some (.str "subscribe"))
    (htickerSub : getProp msgSub "ticker" = some (.str name))
    (hparseUnsub : parse rawUnsub = some msgUnsub)
    (htypeUnsub : getProp msgUnsub "type" = some (.str "unsubscribe"))
    (htickerUnsub : getProp msgUnsub "ticker" = some (.str name)) :
    (onMessage parse s ws rawSub).2 = [(ws, subscribedMsg (.str name))] ∧
      (∃ m1, mapGet (onMessage parse s ws rawSub).1.clients ws = some m1 ∧
        setHas m1.subs (.str name) = true) ∧
      (∃ m2, mapGet (onMessage parse (onMessage parse s ws rawSub).1 ws rawUnsub).1.clients ws
          = some m2 ∧ setHas m2.subs (.str name) = false) ∧
      onMessage parse (onMessage parse s ws rawSub).1 ws rawSub
        = ((onMessage parse s ws rawSub).1, [(ws, subscribedMsg (.str name))]) := by
  have hsup : supportedIncludes (.str name) = true :=
    (supportedIncludes_iff _).2 ⟨name, hname, rfl⟩
  have h1 := onMessage_subscribe_supported parse s ws rawSub msgSub (.str name) m hreg
    hparseSub htypeSub htickerSub hsup
  have hreg1 : mapGet (onMessage parse s ws rawSub).1.clients ws
      = some { m with subs := setAdd m.subs (.str name) } := by
    rw [h1]; exact mapGet_mapSet_self _ _ _
  have hhas : setHas (setAdd m.subs (.str name)) (.str name) = true := setHas_setAdd_str _ _
  refine ⟨by rw [h1], ⟨_, hreg1, hhas⟩, ?_, ?_⟩
  · have h2 := onMessage_unsubscribe parse (onMessage parse s ws rawSub).1 ws rawUnsub msgUnsub
      (.str name) _ hreg1 hparseUnsub htypeUnsub htickerUnsub
    refine ⟨{ email := m.email, subs := setDelete (setAdd m.subs (.str name)) (.str name) }, ?_,
      setHas_setDelete (setAdd m.subs (.str name)) (.str name)⟩
    rw [h2]
    exact mapGet_mapSet_self _ _ _
  · have h3 := onMessage_subscribe_supported parse (onMessage parse s ws rawSub).1 ws rawSub
      msgSub (.str name) _ hreg1 hparseSub htypeSub htickerSub hsup
    rw [h3]
    simp only [setAdd_of_setHas _ _ hhas]
    rw [mapSet_same _ _ _ hreg1]

theorem subscribe_unsubscribe_round_trip_witness :
    (onMessage sampleParse sampleServer 7
        "\x7b\"type\":\"subscribe\",\"ticker\":\"GOOG\"\x7d").2
        = [(7, subscribedMsg (.str "GOOG"))] ∧
      (∃ m1, mapGet (onMessage sampleParse sampleServer 7
          "\x7b\"type\":\"subscribe\",\"ticker\":\"GOOG\"\x7d").1.clients 7 = some m1 ∧
        setHas m1.subs (.str "GOOG") = true) ∧
      (∃ m2, mapGet (onMessage sampleParse (onMessage sampleParse sampleServer 7
          "\x7b\"type\":\"subscribe\",\"ticker\":\"GOOG\"\x7d").1 7
          "\x7b\"type\":\"unsubscribe\",\"ticker\":\"GOOG\"\x7d").1.clients 7 = some m2 ∧
        setHas m2.subs (.str "GOOG") = false) ∧
      onMessage sampleParse (onMessage sampleParse sampleServer 7
          "\x7b\"type\":\"subscribe\",\"ticker\":\"GOOG\"\x7d").1 7
          "\x7b\"type\":\"subscribe\",\"ticker\":\"GOOG\"\x7d"
        = ((onMessage sampleParse sampleServer 7
            "\x7b\"type\":\"subscribe\",\"ticker\":\"GOOG\"\x7d").1,
          [(7, subscribedMsg (.str "GOOG"))]) :=
  subscribe_unsubscribe_round_trip sampleParse sampleServer 7 { email := .null, subs := [] }
    "GOOG" _ _
    (.obj [("type", .str "subscribe"), ("ticker", .str "GOOG")])
    (.obj [("type", .str "unsubscribe"), ("ticker", .str "GOOG")])
    (by simp [sampleServer, mapGet]) (by simp [SUPPORTED])
    (by simp [sampleParse]) (by simp [getProp, List.lookup]) (by simp [getProp, List.lookup])
    (by simp [sampleParse]) (by simp [getProp, List.lookup]) (by simp [getProp, List.lookup])

/-- C3: for a registered session and any ticker value, `unsubscribe` is
answered with `unsubscribed` for that value, which is not an error response;
the identity is kept and the new set is the old one without the members equal
to the value; a second identical `unsubscribe` gets the same answer and leaves
the state unchanged. -/
theorem unsubscribe_idempotent (parse : String → Option JsVal) (s : Server) (ws : Nat)
    (m : ClientMeta) (raw : String) (msg t : JsVal)
    (hreg : mapGet s.clients ws = some m) (hparse : parse raw = some msg)
    (htype : getProp msg "type" = some (.str "unsubscribe"))
    (hticker : getProp msg "ticker" = some t) :
    (onMessage parse s ws raw).2 = [(ws, unsubscribedMsg t)] ∧
      (∀ text, unsubscribedMsg t ≠ errorMsg text) ∧
      (∃ m1, mapGet (onMessage parse s ws raw).1.clients ws = some m1 ∧
        m1.email = m.email ∧
        m1.subs = m.subs.filter (fun x => !sameValueZero x t) ∧
        setHas m1.subs t = false) ∧
      onMessage parse (onMessage parse s ws raw).1 ws raw
        = ((onMessage parse s ws raw).1, [(ws, unsubscribedMsg t)]) := by
  have h1 := onMessage_unsubscribe parse s ws raw msg t m hreg hparse htype hticker
  have hreg1 : mapGet (onMessage parse s ws raw).1.clients ws
      = some { m with subs := setDelete m.subs t } := by
    rw [h1]; exact mapGet_mapSet_self _ _ _
  refine ⟨by rw [h1], ?_, ⟨_, hreg1, rfl, rfl, setHas_setDelete _ _⟩, ?_⟩
  · intro text h
    simp [unsubscribedMsg, errorMsg] at h
  · have h2 := onMessage_unsubscribe parse (onMessage parse s ws raw).1 ws raw msg t _ hreg1
      hparse htype hticker
    rw [h2]
    simp only [setDelete_setDelete]
    rw [mapSet_same _ _ _ hreg1]

theorem unsubscribe_idempotent_witness :
    (onMessage sampleParse sampleServer 7
        "\x7b\"type\":\"unsubscribe\",\"ticker\":\"GOOG\"\x7d").2
        = [(7, unsubscribedMsg (.str "GOOG"))] ∧
      (∀ text, unsubscribedMsg (.str "GOOG") ≠ errorMsg text) ∧
      (∃ m1, mapGet (onMessage sampleParse sampleServer 7
          "\x7b\"type\":\"unsubscribe\",\"ticker\":\"GOOG\"\x7d").1.clients 7 = some m1 ∧
        m1.email = JsVal.null ∧
        m1.subs = ([] : List JsVal).filter (fun x => !sameValueZero x (.str "GOOG")) ∧
        setHas m1.subs (.str "GOOG") = false) ∧
      onMessage sampleParse (onMessage sampleParse sampleServer 7
          "\x7b\"type\":\"unsubscribe\",\"ticker\":\"GOOG\"\x7d").1 7
          "\x7b\"type\":\"unsubscribe\",\"ticker\":\"GOOG\"\x7d"
        = ((onMessage sampleParse sampleServer 7
            "\x7b\"type\":\"unsubscribe\",\"ticker\":\"GOOG\"\x7d").1,
          [(7, unsubscribedMsg (.str "GOOG"))]) :=
  unsubscribe_idempotent sampleParse sampleServer 7 { email := .null, subs := [] } _
    (.obj [("type", .str "unsubscribe"), ("ticker", .str "GOOG")]) (.str "GOOG")
    (by simp [sampleServer, mapGet])
    (by simp [sampleParse]) (by simp [getProp, List.lookup]) (by simp [getProp, List.lookup])

/-! ## Rounding to binary64 -/

theorem floor_le_roundHalfEven (x : ℚ) : ⌊x⌋ ≤ roundHalfEven x := by
  unfold roundHalfEven
  split_ifs <;> omega

theorem roundHalfEven_le_floor_add_one (x : ℚ) : roundHalfEven x ≤ ⌊x⌋ + 1 := by
  unfold roundHalfEven
  split_ifs <;> omega

theorem roundHalfEven_intCast (n : ℤ) : roundHalfEven (n : ℚ) = n := by
  unfold roundHalfEven
  simp

theorem le_roundHalfEven (x : ℚ) (n : ℤ) (h : (n : ℚ) ≤ x) : n ≤ roundHalfEven x :=
  le_trans (Int.le_floor.2 h) (floor_le_roundHalfEven x)

theorem roundHalfEven_le (x : ℚ) (n : ℤ) (h : x ≤ (n : ℚ)) : roundHalfEven x ≤ n := by
  have hfl : ⌊x⌋ ≤ n := Int.floor_le_floor h |>.trans (by simp)
  unfold roundHalfEven
  split_ifs with h1 h2 h3
  · exact hfl
  · by_contra hcon
    have hfn : ⌊x⌋ = n := by omega
    have hx : (n : ℚ) ≤ x := by rw [← hfn]; exact Int.floor_le x
    have hxn : x = n := le_antisymm h hx
    rw [hxn] at h2
    simp at h2
    linarith
  · exact hfl
  · by_contra hcon
    have hfn : ⌊x⌋ = n := by omega
    have hx : (n : ℚ) ≤ x := by rw [← hfn]; exact Int.floor_le x
    have hxn : x = n := le_antisymm h hx
    rw [hxn] at h1
    simp at h1

theorem abs_roundHalfEven_sub_le (x : ℚ) : |(roundHalfEven x : ℚ) - x| ≤ 1 / 2 := by
  have h1 := Int.floor_le x
  have h2 := Int.lt_floor_add_one x
  unfold roundHalfEven
  rw [abs_le]
  split_ifs with ha hb hc
  · constructor <;> linarith
  · push_cast; constructor <;> linarith
  · constructor <;> linarith
  · push_cast; constructor <;> linarith

theorem quantum_pos (x : ℚ) : (0 : ℚ) < 2 ^ quantumExp x := zpow_pos (by norm_num) _

theorem zpow_two_int (j : ℤ) (hj : 0 ≤ j) : ∃ N : ℤ, (2 : ℚ) ^ j = (N : ℚ) := by
  obtain ⟨n, rfl⟩ := Int.eq_ofNat_of_zero_le hj
  exact ⟨2 ^ n, by push_cast; rw [zpow_natCast]⟩

theorem roundMagnitude_nonneg (x : ℚ) (hx : 0 ≤ x) : 0 ≤ roundMagnitude x := by
  unfold roundMagnitude
  have hq := quantum_pos x
  have h0 : (0 : ℤ) ≤ roundHalfEven (x / 2 ^ quantumExp x) :=
    le_roundHalfEven _ 0 (by push_cast; positivity)
  have : (0 : ℚ) ≤ (roundHalfEven (x / 2 ^ quantumExp x) : ℚ) := by exact_mod_cast h0
  positivity

theorem abs_roundMagnitude_sub_le (x : ℚ) :
    |roundMagnitude x - x| ≤ 2 ^ quantumExp x / 2 := by
  have hq := quantum_pos x
  have h := abs_roundHalfEven_sub_le (x / 2 ^ quantumExp x)
  unfold roundMagnitude
  have e : (roundHalfEven (x / 2 ^ quantumExp x) : ℚ) * 2 ^ quantumExp x - x
      = ((roundHalfEven (x / 2 ^ quantumExp x) : ℚ) - x / 2 ^ quantumExp x) * 2 ^ quantumExp x := by
    field_simp
  rw [e, abs_mul, abs_of_pos hq]
  calc |(roundHalfEven (x / 2 ^ quantumExp x) : ℚ) - x / 2 ^ quantumExp x| * 2 ^ quantumExp x
      ≤ 1 / 2 * 2 ^ quantumExp x := by
        exact mul_le_mul_of_nonneg_right h hq.le
    _ = 2 ^ quantumExp x / 2 := by ring

theorem quantumExp_ge (x : ℚ) : -1074 ≤ quantumExp x := by
  unfold quantumExp
  have := le_max_right (Int.log 2 x) (-1022)
  omega

theorem quantumExp_eq_log (x : ℚ) (h : -1074 < quantumExp x) :
    quantumExp x + 52 = Int.log 2 x := by
  unfold quantumExp at h ⊢
  rcases max_choice (Int.log 2 x) (-1022) with hm | hm
  · rw [hm]; ring
  · rw [hm] at h; omega

theorem lt_zpow_quantumExp (x : ℚ) : x < 2 ^ (quantumExp x + 53) := by
  have h1 : x < (2 : ℚ) ^ (Int.log 2 x + 1) := by
    have := Int.lt_zpow_succ_log_self (b := 2) (by norm_num) x
    simpa using this
  have h2 : Int.log 2 x + 1 ≤ quantumExp x + 53 := by
    unfold quantumExp
    have := le_max_left (Int.log 2 x) (-1022)
    omega
  exact lt_of_lt_of_le h1 (zpow_le_zpow_right₀ (by norm_num) h2)

theorem zpow_quantumExp_le (x : ℚ) (hx : 0 < x) (h : -1074 < quantumExp x) :
    (2 : ℚ) ^ (quantumExp x + 52) ≤ x := by
  rw [quantumExp_eq_log x h]
  have := Int.zpow_log_le_self (b := 2) (by norm_num) hx
  simpa using this

theorem roundMagnitude_zero : roundMagnitude 0 = 0 := by
  unfold roundMagnitude
  simp [roundHalfEven]

theorem double_le_zpow (m k : ℤ) (hm : |m| ≤ 2 ^ 53) :
    (m : ℚ) * 2 ^ k ≤ 2 ^ (k + 53) := by
  have h1 : (m : ℚ) ≤ 2 ^ 53 := by
    have : m ≤ 2 ^ 53 := le_trans (le_abs_self m) hm
    exact_mod_cast this
  have hpos : (0 : ℚ) < 2 ^ k := zpow_pos (by norm_num) _
  calc (m : ℚ) * 2 ^ k ≤ 2 ^ 53 * 2 ^ k := mul_le_mul_of_nonneg_right h1 hpos.le
    _ = 2 ^ (k + 53) := by
      rw [zpow_add₀ (by norm_num : (2 : ℚ) ≠ 0)]
      norm_num
      ring

theorem double_eq_int_mul_quantum (m k qe : ℤ) (h : qe ≤ k) :
    ∃ N : ℤ, (m : ℚ) * 2 ^ k = (N : ℚ) * 2 ^ qe := by
  obtain ⟨N, hN⟩ := zpow_two_int (k - qe) (by omega)
  refine ⟨m * N, ?_⟩
  have : (2 : ℚ) ^ k = 2 ^ (k - qe) * 2 ^ qe := by
    rw [← zpow_add₀ (by norm_num : (2 : ℚ) ≠ 0)]
    congr 1
    ring
  rw [this, hN]
  push_cast
  ring

theorem zpow52_mul_quantum (qe : ℤ) : (2 : ℚ) ^ (qe + 52) = ((2 ^ 52 : ℤ) : ℚ) * 2 ^ qe := by
  rw [zpow_add₀ (by norm_num : (2 : ℚ) ≠ 0)]
  push_cast
  norm_num
  ring

theorem int_mul_quantum_le_roundMagnitude (x : ℚ) (N : ℤ)
    (h : (N : ℚ) * 2 ^ quantumExp x ≤ x) : (N : ℚ) * 2 ^ quantumExp x ≤ roundMagnitude x := by
  have hq := quantum_pos x
  unfold roundMagnitude
  have hN : N ≤ roundHalfEven (x / 2 ^ quantumExp x) :=
    le_roundHalfEven _ N (by rw [le_div_iff₀ hq]; exact h)
  have : (N : ℚ) ≤ (roundHalfEven (x / 2 ^ quantumExp x) : ℚ) := by exact_mod_cast hN
  exact mul_le_mul_of_nonneg_right this hq.le

theorem roundMagnitude_le_int_mul_quantum (x : ℚ) (N : ℤ)
    (h : x ≤ (N : ℚ) * 2 ^ quantumExp x) : roundMagnitude x ≤ (N : ℚ) * 2 ^ quantumExp x := by
  have hq := quantum_pos x
  unfold roundMagnitude
  have hN : roundHalfEven (x / 2 ^ quantumExp x) ≤ N :=
    roundHalfEven_le _ N (by rw [div_le_iff₀ hq]; exact h)
  have : (roundHalfEven (x / 2 ^ quantumExp x) : ℚ) ≤ (N : ℚ) := by exact_mod_cast hN
  exact mul_le_mul_of_nonneg_right this hq.le

theorem le_roundMagnitude (x : ℚ) (hx : 0 ≤ x) (m k : ℤ) (hm : |m| ≤ 2 ^ 53)
    (hk : -1074 ≤ k) (h : (m : ℚ) * 2 ^ k ≤ x) : (m : ℚ) * 2 ^ k ≤ roundMagnitude x := by
  by_cases hcase : quantumExp x ≤ k
  · obtain ⟨N, hN⟩ := double_eq_int_mul_quantum m k (quantumExp x) hcase
    rw [hN] at h ⊢
    exact int_mul_quantum_le_roundMagnitude x N h
  · push_neg at hcase
    rcases eq_or_lt_of_le hx with h0 | hpos
    · rw [← h0, roundMagnitude_zero]
      rw [← h0] at h
      exact h
    · have hlo := zpow_quantumExp_le x hpos (by omega)
      have h1 : (m : ℚ) * 2 ^ k ≤ 2 ^ (quantumExp x + 52) :=
        le_trans (double_le_zpow m k hm) (zpow_le_zpow_right₀ (by norm_num) (by omega))
      rw [zpow52_mul_quantum] at hlo h1
      exact le_trans h1 (int_mul_quantum_le_roundMagnitude x _ hlo)

theorem roundMagnitude_le (x : ℚ) (hx : 0 ≤ x) (m k : ℤ) (hm : |m| ≤ 2 ^ 53)
    (hk : -1074 ≤ k) (h : x ≤ (m : ℚ) * 2 ^ k) : roundMagnitude x ≤ (m : ℚ) * 2 ^ k := by
  by_cases hcase : quantumExp x ≤ k
  · obtain ⟨N, hN⟩ := double_eq_int_mul_quantum m k (quantumExp x) hcase
    rw [hN] at h ⊢
    exact roundMagnitude_le_int_mul_quantum x N h
  · push_neg at hcase
    rcases eq_or_lt_of_le hx with h0 | hpos
    · rw [← h0, roundMagnitude_zero]
      rw [← h0] at h
      exact h
    · have hlo := zpow_quantumExp_le x hpos (by omega)
      have h1 : (m : ℚ) * 2 ^ k ≤ 2 ^ (quantumExp x + 52) :=
        le_trans (double_le_zpow m k hm) (zpow_le_zpow_right₀ (by norm_num) (by omega))
      have hxe : x = 2 ^ (quantumExp x + 52) := le_antisymm (le_trans h h1) hlo
      have hbe : (m : ℚ) * 2 ^ k = 2 ^ (quantumExp x + 52) := le_antisymm h1 (hxe ▸ h)
      rw [hbe, zpow52_mul_quantum]
      apply roundMagnitude_le_int_mul_quantum
      rw [← zpow52_mul_quantum]
      exact hxe.le

theorem isDouble_roundMagnitude (x : ℚ) (hx : 0 ≤ x) : IsDouble (roundMagnitude x) := by
  have hq := quantum_pos x
  refine ⟨roundHalfEven (x / 2 ^ quantumExp x), quantumExp x, ?_, quantumExp_ge x, rfl⟩
  rw [abs_le]
  constructor
  · have : (0 : ℤ) ≤ roundHalfEven (x / 2 ^ quantumExp x) :=
      le_roundHalfEven _ 0 (by push_cast; positivity)
    omega
  · apply roundHalfEven_le
    rw [div_le_iff₀ hq]
    have h := (lt_zpow_quantumExp x).le
    rw [show quantumExp x + 53 = 53 + quantumExp x by ring,
      zpow_add₀ (by norm_num : (2 : ℚ) ≠ 0)] at h
    push_cast
    norm_num at h ⊢
    exact h

theorem IsDouble.neg {x : ℚ} (h : IsDouble x) : IsDouble (-x) := by
  obtain ⟨m, k, hm, hk, rfl⟩ := h
  exact ⟨-m, k, by rwa [abs_neg], hk, by push_cast; ring⟩

theorem toDouble_neg (x : ℚ) : toDouble (-x) = -toDouble x := by
  unfold toDouble
  rcases lt_trichotomy x 0 with h | h | h
  · rw [if_neg (by linarith), if_pos h, neg_neg]
  · subst h
    simp [roundMagnitude_zero]
  · rw [if_pos (by linarith), if_neg (by linarith), neg_neg]

theorem isDouble_toDouble (x : ℚ) : IsDouble (toDouble x) := by
  unfold toDouble
  split_ifs with h
  · exact (isDouble_roundMagnitude (-x) (by linarith)).neg
  · exact isDouble_roundMagnitude x (by linarith)

theorem le_toDouble (x a : ℚ) (ha : IsDouble a) (h : a ≤ x) : a ≤ toDouble x := by
  unfold toDouble
  split_ifs with hx
  · obtain ⟨m, k, hm, hk, hb⟩ := ha.neg
    have := roundMagnitude_le (-x) (by linarith) m k hm hk (by rw [← hb]; linarith)
    rw [← hb] at this
    linarith
  · obtain ⟨m, k, hm, hk, rfl⟩ := ha
    exact le_roundMagnitude x (by linarith) m k hm hk h

theorem toDouble_le (x b : ℚ) (hb : IsDouble b) (h : x ≤ b) : toDouble x ≤ b := by
  have := le_toDouble (-x) (-b) hb.neg (by linarith)
  rw [toDouble_neg] at this
  linarith

theorem toDouble_of_isDouble (x : ℚ) (h : IsDouble x) : toDouble x = x :=
  le_antisymm (toDouble_le x x h le_rfl) (le_toDouble x x h le_rfl)

theorem quantum_le (x : ℚ) (hx : 0 ≤ x) : (2 : ℚ) ^ quantumExp x ≤ max x 1 / 2 ^ 52 := by
  rw [le_div_iff₀ (by positivity)]
  have e : (2 : ℚ) ^ quantumExp x * 2 ^ 52 = 2 ^ (quantumExp x + 52) := by
    rw [zpow_add₀ (by norm_num : (2 : ℚ) ≠ 0)]
    norm_num
  rw [e]
  by_cases hc : -1074 < quantumExp x
  · rcases eq_or_lt_of_le hx with h0 | hpos
    · rw [← h0]
      have : quantumExp 0 + 52 = 0 := by simp [quantumExp]
      rw [this]
      simp
    · exact le_trans (zpow_quantumExp_le x hpos hc) (le_max_left _ _)
  · have : quantumExp x = -1074 := le_antisymm (not_lt.1 hc) (quantumExp_ge x)
    rw [this]
    refine le_trans ?_ (le_max_right _ _)
    exact zpow_le_one_of_nonpos₀ (by norm_num) (by norm_num)

theorem abs_toDouble_sub_le (x : ℚ) : |toDouble x - x| ≤ max |x| 1 / 2 ^ 53 := by
  have key : ∀ y : ℚ, 0 ≤ y → |roundMagnitude y - y| ≤ max y 1 / 2 ^ 53 := by
    intro y hy
    have h1 := abs_roundMagnitude_sub_le y
    have h2 := quantum_le y hy
    calc |roundMagnitude y - y| ≤ 2 ^ quantumExp y / 2 := h1
      _ ≤ max y 1 / 2 ^ 52 / 2 := by linarith
      _ = max y 1 / 2 ^ 53 := by ring
  unfold toDouble
  split_ifs with h
  · have := key (-x) (by linarith)
    rw [abs_of_neg h]
    rw [show -roundMagnitude (-x) - x = -(roundMagnitude (-x) - -x) by ring, abs_neg]
    exact this
  · push_neg at h
    rw [abs_of_nonneg h]
    exact key x h

theorem roundHalfEven_eq_of_abs_lt (y : ℚ) (m : ℤ) (h : |y - m| < 1 / 2) :
    roundHalfEven y = m := by
  rw [abs_lt] at h
  by_cases hc : (m : ℚ) ≤ y
  · have hf : ⌊y⌋ = m := by
      rw [Int.floor_eq_iff]
      constructor <;> linarith
    unfold roundHalfEven
    rw [hf, if_pos (by linarith)]
  · push_neg at hc
    have hf : ⌊y⌋ = m - 1 := by
      rw [Int.floor_eq_iff]
      push_cast
      constructor <;> linarith
    unfold roundHalfEven
    rw [hf]
    push_cast
    rw [if_neg (by linarith), if_pos (by linarith)]
    ring

theorem roundHalfEven_half_even (y : ℚ) (m : ℤ) (hy : y = m + 1 / 2) (hm : m % 2 = 0) :
    roundHalfEven y = m := by
  have hf : ⌊y⌋ = m := by
    rw [Int.floor_eq_iff]
    constructor <;> linarith
  unfold roundHalfEven
  rw [hf, if_neg (by linarith), if_neg (by linarith), if_pos hm]

theorem quantumExp_eq (x : ℚ) (e : ℤ) (hlo : (2 : ℚ) ^ e ≤ x) (hhi : x < 2 ^ (e + 1))
    (he : -1022 ≤ e) : quantumExp x = e - 52 := by
  have hx : 0 < x := lt_of_lt_of_le (zpow_pos (by norm_num) _) hlo
  have h1 : e ≤ Int.log 2 x := by
    rw [← Int.zpow_le_iff_le_log (by norm_num) hx]
    simpa using hlo
  have h2 : Int.log 2 x < e + 1 := by
    rw [← Int.lt_zpow_iff_log_lt (by norm_num) hx]
    simpa using hhi
  unfold quantumExp
  rw [max_eq_left (by omega)]
  omega

theorem toDouble_eq (x : ℚ) (e m : ℤ) (hlo : (2 : ℚ) ^ e ≤ x) (hhi : x < 2 ^ (e + 1))
    (he : -1022 ≤ e) (hm : roundHalfEven (x / 2 ^ (e - 52)) = m) :
    toDouble x = (m : ℚ) * 2 ^ (e - 52) := by
  have hx : 0 < x := lt_of_lt_of_le (zpow_pos (by norm_num) _) hlo
  unfold toDouble
  rw [if_neg (by linarith)]
  unfold roundMagnitude
  rw [quantumExp_eq x e hlo hhi he, hm]

theorem isDouble_intCast (n : ℤ) (h : |n| ≤ 2 ^ 53) : IsDouble (n : ℚ) :=
  ⟨n, 0, h, by norm_num, by simp⟩

theorem toDouble_hundredth : toDouble (1 / 100) = 5764607523034235 / 2 ^ 59 := by
  rw [toDouble_eq (1 / 100) (-7) 5764607523034235 (by norm_num) (by norm_num) (by norm_num)
    (roundHalfEven_eq_of_abs_lt _ _ (by norm_num [abs_lt]))]
  norm_num

theorem isDouble_int_of_large (x : ℚ) (hx : IsDouble x) (hbig : 10 ^ 21 ≤ |x|) :
    ∃ N : ℤ, x = (N : ℚ) := by
  obtain ⟨m, k, hm, _, rfl⟩ := hx
  by_cases hk : 0 ≤ k
  · obtain ⟨N, hN⟩ := zpow_two_int k hk
    exact ⟨m * N, by rw [hN]; push_cast; ring⟩
  · exfalso
    push_neg at hk
    have h1 : (2 : ℚ) ^ k ≤ 1 := zpow_le_one_of_nonpos₀ (by norm_num) hk.le
    have h2 : (0 : ℚ) < 2 ^ k := zpow_pos (by norm_num) _
    have h3 : |(m : ℚ)| ≤ 2 ^ 53 := by exact_mod_cast hm
    rw [abs_mul, abs_of_pos h2] at hbig
    have h4 : |(m : ℚ)| * 2 ^ k ≤ 2 ^ 53 * 1 :=
      mul_le_mul h3 h1 h2.le (by norm_num)
    norm_num at h4
    linarith

/-! ## The price step (C4, C5) -/

theorem toFixed2_ge (x : ℚ) (n : ℤ) (h : (n : ℚ) / 100 - 1 / 200 < x) :
    (n : ℚ) / 100 ≤ toFixed2 x := by
  unfold toFixed2
  split_ifs with hneg
  · have hfl : ⌊(-x) * 100 + 1 / 2⌋ < -n + 1 := by
      rw [Int.floor_lt]
      push_cast
      linarith
    have hle : ⌊(-x) * 100 + 1 / 2⌋ ≤ -n := by omega
    have hq : ((⌊(-x) * 100 + 1 / 2⌋ : ℤ) : ℚ) ≤ -(n : ℚ) := by exact_mod_cast hle
    linarith
  · have hle : n ≤ ⌊x * 100 + 1 / 2⌋ := by
      rw [Int.le_floor]
      linarith
    have hq : (n : ℚ) ≤ ((⌊x * 100 + 1 / 2⌋ : ℤ) : ℚ) := by exact_mod_cast hle
    linarith

theorem toFixed2_le (x : ℚ) (n : ℤ) (h : x < (n : ℚ) / 100 + 1 / 200) :
    toFixed2 x ≤ (n : ℚ) / 100 := by
  unfold toFixed2
  split_ifs with hneg
  · have hle : -n ≤ ⌊(-x) * 100 + 1 / 2⌋ := by
      rw [Int.le_floor]
      push_cast
      linarith
    have hq : -(n : ℚ) ≤ ((⌊(-x) * 100 + 1 / 2⌋ : ℤ) : ℚ) := by exact_mod_cast hle
    linarith
  · have hfl : ⌊x * 100 + 1 / 2⌋ < n + 1 := by
      rw [Int.floor_lt]
      push_cast
      linarith
    have hle : ⌊x * 100 + 1 / 2⌋ ≤ n := by omega
    have hq : ((⌊x * 100 + 1 / 2⌋ : ℤ) : ℚ) ≤ (n : ℚ) := by exact_mod_cast hle
    linarith

theorem toFixed2_hundredths (x : ℚ) : ∃ n : ℤ, toFixed2 x = (n : ℚ) / 100 := by
  unfold toFixed2
  split_ifs with hneg
  · exact ⟨-⌊(-x) * 100 + 1 / 2⌋, by push_cast; ring⟩
  · exact ⟨⌊x * 100 + 1 / 2⌋, rfl⟩

theorem twoDecimal_readFixed2 (x : ℚ) (hx : IsDouble x) : TwoDecimal (readFixed2 x) := by
  unfold readFixed2
  split_ifs with hbig
  · obtain ⟨N, hN⟩ := isDouble_int_of_large x hx hbig
    refine ⟨N * 100, ?_⟩
    have : ((N * 100 : ℤ) : ℚ) / 100 = x := by rw [hN]; push_cast; ring
    rw [this, toDouble_of_isDouble x hx]
  · obtain ⟨n, hn⟩ := toFixed2_hundredths x
    exact ⟨n, by rw [hn]⟩

theorem twoDecimal_seedPrice (r : ℚ) : TwoDecimal (seedPrice r) :=
  twoDecimal_readFixed2 _ (isDouble_toDouble _)

theorem twoDecimal_advance (r p : ℚ) : TwoDecimal (advance r p) := by
  unfold advance
  rcases max_choice (toDouble (1 / 100))
    (readFixed2 (toDouble (p + toDouble (toDouble (r - 1 / 2) * 2)))) with h | h
  · rw [h]
    exact ⟨1, by norm_num⟩
  · rw [h]
    exact twoDecimal_readFixed2 _ (isDouble_toDouble _)

theorem floor_le_advance (r p : ℚ) : 1 / 100 ≤ advance r p := by
  have h : toDouble (1 / 100) ≤ advance r p := le_max_left _ _
  rw [toDouble_hundredth] at h
  have : (1 / 100 : ℚ) ≤ 5764607523034235 / 2 ^ 59 := by norm_num
  linarith

theorem seed_sum_bounds (r : ℚ) (h0 : 0 ≤ r) (h1 : r < 1) :
    100 ≤ toDouble (100 + toDouble (r * 900)) ∧ toDouble (100 + toDouble (r * 900)) ≤ 1000 := by
  have hz : IsDouble (0 : ℚ) := by simpa using isDouble_intCast 0 (by norm_num)
  have h900 : IsDouble (900 : ℚ) := by simpa using isDouble_intCast 900 (by norm_num)
  have h100 : IsDouble (100 : ℚ) := by simpa using isDouble_intCast 100 (by norm_num)
  have h1000 : IsDouble (1000 : ℚ) := by simpa using isDouble_intCast 1000 (by norm_num)
  have ha : 0 ≤ toDouble (r * 900) := le_toDouble _ 0 hz (by linarith)
  have hb : toDouble (r * 900) ≤ 900 := toDouble_le _ 900 h900 (by linarith)
  exact ⟨le_toDouble _ 100 h100 (by linarith), toDouble_le _ 1000 h1000 (by linarith)⟩

theorem seedPrice_bounds (r : ℚ) (h0 : 0 ≤ r) (h1 : r < 1) :
    ∃ n : ℤ, 10000 ≤ n ∧ n ≤ 100000 ∧ seedPrice r = toDouble ((n : ℚ) / 100) ∧
      100 ≤ seedPrice r ∧ seedPrice r ≤ 1000 := by
  have h100 : IsDouble (100 : ℚ) := by simpa using isDouble_intCast 100 (by norm_num)
  have h1000 : IsDouble (1000 : ℚ) := by simpa using isDouble_intCast 1000 (by norm_num)
  obtain ⟨hlo, hhi⟩ := seed_sum_bounds r h0 h1
  have hsmall : ¬ (10 : ℚ) ^ 21 ≤ |toDouble (100 + toDouble (r * 900))| := by
    rw [abs_of_nonneg (by linarith)]
    intro h
    norm_num at h
    linarith
  obtain ⟨n, hn⟩ := toFixed2_hundredths (toDouble (100 + toDouble (r * 900)))
  have hge : ((10000 : ℤ) : ℚ) / 100 ≤ toFixed2 (toDouble (100 + toDouble (r * 900))) :=
    toFixed2_ge _ 10000 (by push_cast; linarith)
  have hle : toFixed2 (toDouble (100 + toDouble (r * 900))) ≤ ((100000 : ℤ) : ℚ) / 100 :=
    toFixed2_le _ 100000 (by push_cast; linarith)
  rw [hn] at hge hle
  push_cast at hge hle
  have hn1 : (10000 : ℚ) ≤ (n : ℚ) := by linarith
  have hn2 : (n : ℚ) ≤ 100000 := by linarith
  have hseed : seedPrice r = toDouble ((n : ℚ) / 100) := by
    unfold seedPrice readFixed2
    rw [if_neg hsmall, hn]
  refine ⟨n, by exact_mod_cast hn1, by exact_mod_cast hn2, hseed, ?_, ?_⟩
  · rw [hseed]
    exact le_toDouble _ 100 h100 (by linarith)
  · rw [hseed]
    exact toDouble_le _ 1000 h1000 (by linarith)

theorem floor_le_seedPrice (r : ℚ) (h0 : 0 ≤ r) (h1 : r < 1) : 1 / 100 ≤ seedPrice r := by
  obtain ⟨_, _, _, _, h, _⟩ := seedPrice_bounds r h0 h1
  linarith

theorem change_bounds (r : ℚ) (h0 : 0 ≤ r) (h1 : r < 1) :
    -1 ≤ toDouble (toDouble (r - 1 / 2) * 2) ∧ toDouble (toDouble (r - 1 / 2) * 2) ≤ 1 := by
  have hhalf : IsDouble (1 / 2 : ℚ) := ⟨1, -1, by norm_num, by norm_num, by norm_num⟩
  have hone : IsDouble (1 : ℚ) := by simpa using isDouble_intCast 1 (by norm_num)
  have ha : -(1 / 2) ≤ toDouble (r - 1 / 2) := le_toDouble _ _ hhalf.neg (by linarith)
  have hb : toDouble (r - 1 / 2) ≤ 1 / 2 := toDouble_le _ _ hhalf (by linarith)
  exact ⟨le_toDouble _ _ hone.neg (by linarith), toDouble_le _ _ hone (by linarith)⟩

theorem toDouble_hundredths_ge (k : ℤ) (hk : 1 ≤ k) :
    toDouble (1 / 100) ≤ toDouble ((k : ℚ) / 100) := by
  rcases eq_or_lt_of_le hk with h | h
  · rw [← h]
    norm_num
  · have hk2 : (2 : ℚ) ≤ (k : ℚ) := by exact_mod_cast h
    apply le_toDouble _ _ (isDouble_toDouble _)
    rw [toDouble_hundredth]
    have : (5764607523034235 / 2 ^ 59 : ℚ) ≤ 2 / 100 := by norm_num
    linarith

theorem abs_toDouble_sub_le_of (x B : ℚ) (hx : |x| ≤ B) (hB : 1 ≤ B) :
    |toDouble x - x| ≤ B / 2 ^ 53 :=
  le_trans (abs_toDouble_sub_le x)
    (div_le_div_of_nonneg_right (max_le hx hB) (by positivity))

theorem toDouble_example_price : toDouble (12702 / 100) = 8938237885446881 / 2 ^ 46 := by
  rw [toDouble_eq (12702 / 100) 6 8938237885446881 (by norm_num) (by norm_num) (by norm_num)
    (roundHalfEven_eq_of_abs_lt _ _ (by norm_num [abs_lt]))]
  norm_num

theorem advance_example :
    advance (511 / 512) (8938237885446881 / 2 ^ 46) = 4504303314812273 / 2 ^ 45 := by
  have h1 : toDouble (511 / 512 - 1 / 2) = 255 / 512 := by
    rw [toDouble_of_isDouble _ ⟨255, -9, by norm_num, by norm_num, by norm_num⟩]
    norm_num
  have h2 : toDouble (255 / 512 * 2) = 255 / 256 := by
    rw [toDouble_of_isDouble _ ⟨255, -8, by norm_num, by norm_num, by norm_num⟩]
    norm_num
  have h3 : toDouble (8938237885446881 / 2 ^ 46 + 255 / 256) = 4504165875858800 / 2 ^ 45 := by
    rw [toDouble_eq _ 7 4504165875858800 (by norm_num) (by norm_num) (by norm_num)
      (roundHalfEven_half_even _ _ (by norm_num) (by norm_num))]
    norm_num
  have h4 : toFixed2 (4504165875858800 / 2 ^ 45) = 12802 / 100 := by
    unfold toFixed2
    rw [if_neg (by norm_num)]
    have hfl : ⌊(4504165875858800 / 2 ^ 45 : ℚ) * 100 + 1 / 2⌋ = 12802 := by
      rw [Int.floor_eq_iff]
      constructor <;> norm_num
    rw [hfl]
    norm_num
  have h5 : toDouble (12802 / 100) = 4504303314812273 / 2 ^ 45 := by
    rw [toDouble_eq (12802 / 100) 7 4504303314812273 (by norm_num) (by norm_num) (by norm_num)
      (roundHalfEven_eq_of_abs_lt _ _ (by norm_num [abs_lt]))]
    norm_num
  have h6 : readFixed2 (4504165875858800 / 2 ^ 45) = 4504303314812273 / 2 ^ 45 := by
    unfold readFixed2
    rw [if_neg (by rw [abs_of_pos (by norm_num)]; norm_num), h4, h5]
  unfold advance
  rw [h1, h2, h3, h6, toDouble_hundredth]
  exact max_eq_right (by norm_num)

theorem advance_large_example : advance 0 (2 ^ 53 + 2) = 2 ^ 53 := by
  have h1 : toDouble (0 - 1 / 2) = -(1 / 2) := by
    rw [toDouble_of_isDouble _ ⟨-1, -1, by norm_num, by norm_num, by norm_num⟩]
    norm_num
  have h2 : toDouble (-(1 / 2) * 2) = -1 := by
    rw [toDouble_of_isDouble _ ⟨-1, 0, by norm_num, by norm_num, by norm_num⟩]
    norm_num
  have h3 : toDouble (2 ^ 53 + 2 + -1) = 2 ^ 53 := by
    rw [toDouble_eq _ 53 (2 ^ 52) (by norm_num) (by norm_num) (by norm_num)
      (roundHalfEven_half_even _ _ (by norm_num) (by norm_num))]
    norm_num
  have h4 : toFixed2 (2 ^ 53) = 2 ^ 53 := by
    unfold toFixed2
    rw [if_neg (by norm_num)]
    have hfl : ⌊(2 ^ 53 : ℚ) * 100 + 1 / 2⌋ = 2 ^ 53 * 100 := by
      rw [Int.floor_eq_iff]
      constructor <;> norm_num
    rw [hfl]
    norm_num
  have h5 : toDouble (2 ^ 53) = 2 ^ 53 := by
    rw [toDouble_of_isDouble _ ⟨2 ^ 53, 0, by norm_num, by norm_num, by norm_num⟩]
  have h6 : readFixed2 (2 ^ 53) = 2 ^ 53 := by
    unfold readFixed2
    rw [if_neg (by rw [abs_of_pos (by norm_num)]; norm_num), h4, h5]
  unfold advance
  rw [h1, h2, h3, h6, toDouble_hundredth]
  exact max_eq_right (by norm_num)

/-- C4 as stated fails on the numbers the server stores: from the two-decimal
price `127.02` the draw `511/512` leads to `128.02`, and the two doubles
differ by `1 + 2^-46`, more than `1.00`. -/
theorem advance_bound_counterexample :
    ¬ ∀ r p : ℚ, TwoDecimal p → 1 / 100 ≤ p → 0 ≤ r → r < 1 →
      0 < advance r p ∧ |advance r p - p| ≤ 1 := by
  intro hall
  have h := (hall (511 / 512) (8938237885446881 / 2 ^ 46)
    ⟨12702, by rw [← toDouble_example_price]; norm_num⟩
    (by norm_num) (by norm_num) (by norm_num)).2
  rw [advance_example, abs_le] at h
  norm_num at h

/-- C4, amended: when the previous price is the double of a two-decimal value
`n/100` with `0.01 ≤ n/100 ≤ 10^9` and the draw lies in `[0,1)`, the advanced
price is strictly positive and is the double of a two-decimal value `k/100`
with `k/100 ≥ 0.01` and `|k/100 - n/100| ≤ 1.00`; the two stored doubles
differ by at most `1 + 2^-22`. -/
theorem advance_bounded (r : ℚ) (n : ℤ) (hn1 : 1 ≤ n) (hnB : n ≤ 10 ^ 11)
    (hr0 : 0 ≤ r) (hr1 : r < 1) :
    0 < advance r (toDouble ((n : ℚ) / 100)) ∧
      ∃ k : ℤ, advance r (toDouble ((n : ℚ) / 100)) = toDouble ((k : ℚ) / 100) ∧ 1 ≤ k ∧
        |(k : ℚ) / 100 - (n : ℚ) / 100| ≤ 1 ∧
        |advance r (toDouble ((n : ℚ) / 100)) - toDouble ((n : ℚ) / 100)| ≤ 1 + 1 / 2 ^ 22 := by
  have hpos : 0 < advance r (toDouble ((n : ℚ) / 100)) :=
    lt_of_lt_of_le (by norm_num) (floor_le_advance r _)
  refine ⟨hpos, ?_⟩
  have hn1q : (1 : ℚ) ≤ (n : ℚ) := by exact_mod_cast hn1
  have hnBq : (n : ℚ) ≤ 10 ^ 11 := by exact_mod_cast hnB
  obtain ⟨hc1, hc2⟩ := change_bounds r hr0 hr1
  -- the previous price
  have hp := abs_toDouble_sub_le_of ((n : ℚ) / 100) (10 ^ 9)
    (by rw [abs_of_nonneg (by positivity)]; linarith) (by norm_num)
  rw [abs_le] at hp
  -- the sum
  have hx : |toDouble ((n : ℚ) / 100) + toDouble (toDouble (r - 1 / 2) * 2)| ≤ 10 ^ 9 + 2 := by
    rw [abs_le]
    constructor <;> norm_num at hp ⊢ <;> linarith
  have hs := abs_toDouble_sub_le_of _ (10 ^ 9 + 2) hx (by norm_num)
  rw [abs_le] at hs hx
  have hsmall : ¬ (10 : ℚ) ^ 21 ≤
      |toDouble (toDouble ((n : ℚ) / 100) + toDouble (toDouble (r - 1 / 2) * 2))| := by
    intro hbig
    rcases le_abs'.1 hbig with h | h <;> norm_num at h hs hx <;> linarith
  obtain ⟨k0, hk0⟩ := toFixed2_hundredths
    (toDouble (toDouble ((n : ℚ) / 100) + toDouble (toDouble (r - 1 / 2) * 2)))
  have hge : (((n - 100 : ℤ)) : ℚ) / 100 ≤ toFixed2
      (toDouble (toDouble ((n : ℚ) / 100) + toDouble (toDouble (r - 1 / 2) * 2))) :=
    toFixed2_ge _ _ (by push_cast; norm_num at hp hs ⊢; linarith)
  have hle : toFixed2
      (toDouble (toDouble ((n : ℚ) / 100) + toDouble (toDouble (r - 1 / 2) * 2)))
        ≤ (((n + 100 : ℤ)) : ℚ) / 100 :=
    toFixed2_le _ _ (by push_cast; norm_num at hp hs ⊢; linarith)
  rw [hk0] at hge hle
  push_cast at hge hle
  have hk0lo : (n : ℚ) - 100 ≤ (k0 : ℚ) := by linarith
  have hk0hi : (k0 : ℚ) ≤ (n : ℚ) + 100 := by linarith
  have hadv : advance r (toDouble ((n : ℚ) / 100))
      = max (toDouble (1 / 100)) (toDouble ((k0 : ℚ) / 100)) := by
    unfold advance readFixed2
    rw [if_neg hsmall, hk0]
  have hz : IsDouble (0 : ℚ) := by simpa using isDouble_intCast 0 (by norm_num)
  -- the two-decimal value of the new price
  obtain ⟨k, hk, hk1, hklo, hkhi⟩ : ∃ k : ℤ,
      advance r (toDouble ((n : ℚ) / 100)) = toDouble ((k : ℚ) / 100) ∧ 1 ≤ k ∧
        (n : ℚ) - 100 ≤ (k : ℚ) ∧ (k : ℚ) ≤ (n : ℚ) + 100 := by
    by_cases hcase : 1 ≤ k0
    · refine ⟨k0, ?_, hcase, hk0lo, hk0hi⟩
      rw [hadv]
      exact max_eq_right (toDouble_hundredths_ge k0 hcase)
    · push_neg at hcase
      have hk0q : (k0 : ℚ) ≤ 0 := by exact_mod_cast (by omega : k0 ≤ 0)
      refine ⟨1, ?_, le_rfl, by push_cast; linarith, by push_cast; linarith⟩
      rw [hadv]
      push_cast
      apply max_eq_left
      have h1 : toDouble ((k0 : ℚ) / 100) ≤ 0 := toDouble_le _ 0 hz (by linarith)
      have h2 : (0 : ℚ) < toDouble (1 / 100) := by rw [toDouble_hundredth]; norm_num
      linarith
  have hk1q : (1 : ℚ) ≤ (k : ℚ) := by exact_mod_cast hk1
  refine ⟨k, hk, hk1, ?_, ?_⟩
  · rw [abs_le]
    constructor <;> linarith
  · have hnew := abs_toDouble_sub_le_of ((k : ℚ) / 100) (10 ^ 9 + 1)
      (by rw [abs_of_nonneg (by positivity)]; linarith) (by norm_num)
    rw [hk]
    rw [abs_le] at hnew ⊢
    constructor <;> norm_num at hp hnew ⊢ <;> linarith

theorem advance_bounded_witness :
    0 < advance (3 / 4) (toDouble (((12345 : ℤ) : ℚ) / 100)) ∧
      ∃ k : ℤ, advance (3 / 4) (toDouble (((12345 : ℤ) : ℚ) / 100)) = toDouble ((k : ℚ) / 100) ∧
        1 ≤ k ∧ |(k : ℚ) / 100 - ((12345 : ℤ) : ℚ) / 100| ≤ 1 ∧
        |advance (3 / 4) (toDouble (((12345 : ℤ) : ℚ) / 100))
          - toDouble (((12345 : ℤ) : ℚ) / 100)| ≤ 1 + 1 / 2 ^ 22 :=
  advance_bounded (3 / 4) 12345 (by norm_num) (by norm_num) (by norm_num) (by norm_num)

theorem onMessage_prices (parse : String → Option JsVal) (s : Server) (ws : Nat) (raw : String) :
    (onMessage parse s ws raw).1.prices = s.prices := by
  unfold onMessage
  split
  · rfl
  · split <;> rfl

theorem seedFrom_good (rand : Nat → ℚ) (good : ℚ → Prop) (hseed : ∀ i, good (seedPrice (rand i)))
    (ts : List String) (i : Nat) (prices : Prices) (t : String)
    (h : t ∈ ts ∨ good (prices t)) : good (seedFrom rand i ts prices t) := by
  induction ts generalizing i prices with
  | nil =>
    rcases h with h | h
    · simp at h
    · exact h
  | cons u rest ih =>
    apply ih
    by_cases hu : t = u
    · right
      simp only [setPrice, hu, if_true]
      exact hseed i
    · rcases h with h | h
      · left
        simpa [hu] using h
      · right
        simpa [setPrice, hu] using h

theorem advanceFrom_good (rand : Nat → ℚ) (good : ℚ → Prop) (hadv : ∀ r p, good (advance r p))
    (ts : List String) (i : Nat) (prices : Prices) (t : String)
    (h : t ∈ ts ∨ good (prices t)) : good (advanceFrom rand i ts prices t) := by
  induction ts generalizing i prices with
  | nil =>
    rcases h with h | h
    · simp at h
    · exact h
  | cons u rest ih =>
    apply ih
    by_cases hu : t = u
    · right
      simp only [setPrice, hu, if_true]
      exact hadv _ _
    · rcases h with h | h
      · left
        simpa [hu] using h
      · right
        simpa [setPrice, hu] using h

theorem step_keeps_prices_good (parse : String → Option JsVal) (s : Server) (e : Event)
    (h : ∀ t ∈ SUPPORTED, 1 / 100 ≤ s.prices t ∧ TwoDecimal (s.prices t)) :
    ∀ t ∈ SUPPORTED, 1 / 100 ≤ (step parse s e).1.prices t ∧
      TwoDecimal ((step parse s e).1.prices t) := by
  cases e with
  | connection ws => exact h
  | message ws raw =>
    intro t ht
    simp only [step, onMessage_prices]
    exact h t ht
  | close ws => exact h
  | tick rand now readyState =>
    intro t ht
    exact advanceFrom_good rand (fun v => 1 / 100 ≤ v ∧ TwoDecimal v)
      (fun r p => ⟨floor_le_advance r p, twoDecimal_advance r p⟩) SUPPORTED 0 s.prices t
      (Or.inl ht)

theorem run_keeps_prices_good (parse : String → Option JsVal) (es : List Event) (s : Server)
    (h : ∀ t ∈ SUPPORTED, 1 / 100 ≤ s.prices t ∧ TwoDecimal (s.prices t)) :
    ∀ t ∈ SUPPORTED, 1 / 100 ≤ (run parse s es).prices t ∧
      TwoDecimal ((run parse s es).prices t) := by
  induction es generalizing s with
  | nil => exact h
  | cons e rest ih => exact ih _ (step_keeps_prices_good parse s e h)

/-- C5: in every state reached from the start-up state (seeded with draws in
`[0,1)`) by any sequence of ticks, messages, opens and closes, every supported
ticker has a price that is strictly positive, at least `0.01`, and two-decimal:
the double that a numeral with two decimals denotes. -/
theorem prices_positive_two_decimal (parse : String → Option JsVal) (rand0 : Nat → ℚ)
    (hdraw : ∀ i, 0 ≤ rand0 i ∧ rand0 i < 1) (es : List Event) (t : String)
    (ht : t ∈ SUPPORTED) :
    0 < (run parse (init rand0) es).prices t ∧
      1 / 100 ≤ (run parse (init rand0) es).prices t ∧
      TwoDecimal ((run parse (init rand0) es).prices t) := by
  have hinit : ∀ u ∈ SUPPORTED, 1 / 100 ≤ (init rand0).prices u ∧
      TwoDecimal ((init rand0).prices u) := by
    intro u hu
    exact seedFrom_good rand0 (fun v => 1 / 100 ≤ v ∧ TwoDecimal v)
      (fun i => ⟨floor_le_seedPrice _ (hdraw i).1 (hdraw i).2, twoDecimal_seedPrice _⟩)
      SUPPORTED 0 _ u
      (Or.inl hu)
  have h := run_keeps_prices_good parse es (init rand0) hinit t ht
  exact ⟨lt_of_lt_of_le (by norm_num) h.1, h.1, h.2⟩

theorem prices_positive_two_decimal_witness :
    0 < (run sampleParse (init (fun _ => 1 / 3))
        [.connection 7, .tick (fun _ => 0) (fun _ => 5) (fun _ => OPEN), .close 7]).prices "GOOG" ∧
      1 / 100 ≤ (run sampleParse (init (fun _ => 1 / 3))
        [.connection 7, .tick (fun _ => 0) (fun _ => 5) (fun _ => OPEN), .close 7]).prices "GOOG" ∧
      TwoDecimal ((run sampleParse (init (fun _ => 1 / 3))
        [.connection 7, .tick (fun _ => 0) (fun _ => 5) (fun _ => OPEN), .close 7]).prices
          "GOOG") :=
  prices_positive_two_decimal sampleParse (fun _ => 1 / 3) (fun _ => by norm_num) _ "GOOG"
    (by simp [SUPPORTED])

/-! ## The tick: snapshot and broadcast (C6, C7, C8) -/

theorem supported_index (i : Nat) (t : String) (h : SUPPORTED[i]? = some t) :
    (i = 0 ∧ t = "GOOG") ∨ (i = 1 ∧ t = "TSLA") ∨ (i = 2 ∧ t = "AMZN") ∨
      (i = 3 ∧ t = "META") ∨ (i = 4 ∧ t = "NVDA") := by
  rcases i with _ | _ | _ | _ | _ | i <;> simp [SUPPORTED] at h <;> simp [h]

theorem tickPrices_supported (rand : Nat → ℚ) (prices : Prices) (i : Nat) (t : String)
    (h : SUPPORTED[i]? = some t) : tickPrices rand prices t = advance (rand i) (prices t) := by
  rcases supported_index i t h with ⟨rfl, rfl⟩ | ⟨rfl, rfl⟩ | ⟨rfl, rfl⟩ | ⟨rfl, rfl⟩ | ⟨rfl, rfl⟩ <;>
    simp [tickPrices, SUPPORTED, advanceFrom, setPrice]

theorem tickPrices_other (rand : Nat → ℚ) (prices : Prices) (t : String)
    (h : t ∉ SUPPORTED) : tickPrices rand prices t = prices t := by
  simp only [SUPPORTED, List.mem_cons, List.mem_singleton, not_or, List.mem_nil_iff,
    or_false] at h
  obtain ⟨h0, h1, h2, h3, h4⟩ := h
  simp [tickPrices, SUPPORTED, advanceFrom, setPrice, h0, h1, h2, h3, h4]

theorem tickUpdates_entry (rand : Nat → ℚ) (now : Nat → Nat) (prices : Prices) (i : Nat)
    (t : String) (h : SUPPORTED[i]? = some t) :
    (tickUpdates rand now prices)[i]? = some (updateEntry t (tickPrices rand prices t) (now i)) := by
  rcases supported_index i t h with ⟨rfl, rfl⟩ | ⟨rfl, rfl⟩ | ⟨rfl, rfl⟩ | ⟨rfl, rfl⟩ | ⟨rfl, rfl⟩ <;>
    simp [tickUpdates, SUPPORTED, updatesFrom]

/-- C6: a tick advances every supported ticker exactly once, ticker number `i`
of `SUPPORTED` with draw number `i`, and touches no other key; the `updates`
array it then builds has exactly one entry per supported ticker, entry `i`
being the object with `ticker` equal to `SUPPORTED[i]`, `price` equal to the
stored price of that ticker after the advance and `ts` equal to the clock
reading number `i`; every message the tick sends is the `price_updates`
object carrying that array. -/
theorem tick_snapshot_shape (rand : Nat → ℚ) (now : Nat → Nat) (readyState : Nat → Nat)
    (s : Server) :
    (∀ i t, SUPPORTED[i]? = some t →
        (tick rand now readyState s).1.prices t = advance (rand i) (s.prices t)) ∧
      (∀ t, t ∉ SUPPORTED → (tick rand now readyState s).1.prices t = s.prices t) ∧
      (tickUpdates rand now s.prices).length = SUPPORTED.length ∧
      (∀ i t, SUPPORTED[i]? = some t →
        (tickUpdates rand now s.prices)[i]?
          = some (JsVal.obj [("ticker", JsVal.str t),
              ("price", JsVal.num ((tick rand now readyState s).1.prices t)),
              ("ts", JsVal.num (now i : ℚ))])) ∧
      (∀ o ∈ (tick rand now readyState s).2,
        o.2 = JsVal.obj [("type", JsVal.str "price_updates"),
          ("updates", JsVal.arr [
            JsVal.obj [("ticker", JsVal.str "GOOG"),
              ("price", JsVal.num (advance (rand 0) (s.prices "GOOG"))), ("ts", JsVal.num (now 0 : ℚ))],
            JsVal.obj [("ticker", JsVal.str "TSLA"),
              ("price", JsVal.num (advance (rand 1) (s.prices "TSLA"))), ("ts", JsVal.num (now 1 : ℚ))],
            JsVal.obj [("ticker", JsVal.str "AMZN"),
              ("price", JsVal.num (advance (rand 2) (s.prices "AMZN"))), ("ts", JsVal.num (now 2 : ℚ))],
            JsVal.obj [("ticker", JsVal.str "META"),
              ("price", JsVal.num (advance (rand 3) (s.prices "META"))), ("ts", JsVal.num (now 3 : ℚ))],
            JsVal.obj [("ticker", JsVal.str "NVDA"),
              ("price", JsVal.num (advance (rand 4) (s.prices "NVDA"))), ("ts", JsVal.num (now 4 : ℚ))]])])
      := by
  refine ⟨fun i t h => tickPrices_supported rand s.prices i t h,
    fun t h => tickPrices_other rand s.prices t h, ?_,
    fun i t h => tickUpdates_entry rand now s.prices i t h, ?_⟩
  · simp [tickUpdates, SUPPORTED, updatesFrom]
  · intro o ho
    simp only [tick, broadcast, List.mem_filterMap] at ho
    obtain ⟨e, _, he⟩ := ho
    split_ifs at he
    simp only [Option.some.injEq] at he
    rw [← he]
    have h0 := tickPrices_supported rand s.prices 0 "GOOG" (by simp [SUPPORTED])
    have h1 := tickPrices_supported rand s.prices 1 "TSLA" (by simp [SUPPORTED])
    have h2 := tickPrices_supported rand s.prices 2 "AMZN" (by simp [SUPPORTED])
    have h3 := tickPrices_supported rand s.prices 3 "META" (by simp [SUPPORTED])
    have h4 := tickPrices_supported rand s.prices 4 "NVDA" (by simp [SUPPORTED])
    simp only [priceUpdatesMsg, tickUpdates, SUPPORTED, updatesFrom, updateEntry, h0, h1, h2,
      h3, h4]

theorem broadcast_eq (readyState : Nat → Nat) (clients : Clients) (payload : JsVal) :
    broadcast readyState clients payload
      = ((clients.map Prod.fst).filter (fun ws => decide (readyState ws = OPEN))).map
          (fun ws => (ws, payload)) := by
  induction clients with
  | nil => rfl
  | cons e rest ih =>
    unfold broadcast at ih ⊢
    simp only [ne_eq, ite_not] at ih ⊢
    by_cases h : readyState e.1 = OPEN
    · simp [List.filterMap_cons, h, ih]
    · simp [List.filterMap_cons, h, ih]

theorem sentTo_map_pair (ws : Nat) (l : List Nat) (payload : JsVal) :
    sentTo ws (l.map (fun k => (k, payload))) = l.count ws := by
  induction l with
  | nil => rfl
  | cons k rest ih =>
    unfold sentTo at ih ⊢
    by_cases h : k = ws
    · subst h
      simp [List.filter_cons, ih]
    · have h2 : (k == ws) = false := by simpa using h
      simp [List.filter_cons, h, ih, List.count_cons, h2]

theorem sentTo_tick (rand : Nat → ℚ) (now : Nat → Nat) (readyState : Nat → Nat) (s : Server)
    (ws : Nat) :
    sentTo ws (tick rand now readyState s).2
      = ((clientKeys s).filter (fun k => decide (readyState k = OPEN))).count ws := by
  simp only [tick, broadcast_eq, sentTo_map_pair, clientKeys]

/-- C7: a tick sends one and the same `price_updates` object, built from the
advanced prices and the clock alone, to every registered socket whose
`readyState` is `OPEN`; two servers with the same prices and the same
registered sockets, whatever the identities and subscription sets, send the
same messages to the same sockets on the same tick. -/
theorem broadcast_independent_of_subscriptions (rand : Nat → ℚ) (now : Nat → Nat)
    (readyState : Nat → Nat) (s1 s2 : Server) (hprices : s1.prices = s2.prices)
    (hkeys : clientKeys s1 = clientKeys s2) :
    (tick rand now readyState s1).2
        = ((clientKeys s1).filter (fun ws => decide (readyState ws = OPEN))).map
            (fun ws => (ws, priceUpdatesMsg (tickUpdates rand now s1.prices))) ∧
      (tick rand now readyState s1).2 = (tick rand now readyState s2).2 := by
  unfold clientKeys at hkeys
  constructor
  · simp only [tick, broadcast_eq, clientKeys]
  · simp only [tick, broadcast_eq, hprices, hkeys]

theorem broadcast_independent_of_subscriptions_witness :
    (tick (fun _ => 1 / 4) (fun _ => 1700000000000) (fun _ => OPEN) sampleServer).2
        = ((clientKeys sampleServer).filter (fun ws => decide ((fun _ => OPEN) ws = OPEN))).map
            (fun ws => (ws, priceUpdatesMsg
              (tickUpdates (fun _ => 1 / 4) (fun _ => 1700000000000) sampleServer.prices))) ∧
      (tick (fun _ => 1 / 4) (fun _ => 1700000000000) (fun _ => OPEN) sampleServer).2
        = (tick (fun _ => 1 / 4) (fun _ => 1700000000000) (fun _ => OPEN)
            sampleServerSubscribed).2 :=
  broadcast_independent_of_subscriptions (fun _ => 1 / 4) (fun _ => 1700000000000)
    (fun _ => OPEN) sampleServer sampleServerSubscribed rfl rfl

theorem mem_keys_of_mapGet (clients : Clients) (ws : Nat) (m : ClientMeta)
    (h : mapGet clients ws = some m) : ws ∈ clients.map Prod.fst := by
  induction clients with
  | nil => simp [mapGet] at h
  | cons e rest ih =>
    obtain ⟨k, old⟩ := e
    by_cases hk : k = ws
    · simp [hk]
    · simp only [mapGet, hk, if_false] at h
      simp [ih h]

theorem keys_mapSet_of_mem (clients : Clients) (ws : Nat) (m : ClientMeta)
    (h : ws ∈ clients.map Prod.fst) :
    (mapSet clients ws m).map Prod.fst = clients.map Prod.fst := by
  induction clients with
  | nil => simp at h
  | cons e rest ih =>
    obtain ⟨k, old⟩ := e
    by_cases hk : k = ws
    · simp [mapSet, hk]
    · have hrest : ws ∈ rest.map Prod.fst := by
        simp only [List.map_cons, List.mem_cons] at h
        rcases h with h | h
        · exact absurd h.symm hk
        · exact h
      simp [mapSet, hk, ih hrest]

theorem keys_mapSet_of_not_mem (clients : Clients) (ws : Nat) (m : ClientMeta)
    (h : ws ∉ clients.map Prod.fst) :
    (mapSet clients ws m).map Prod.fst = clients.map Prod.fst ++ [ws] := by
  induction clients with
  | nil => simp [mapSet]
  | cons e rest ih =>
    obtain ⟨k, old⟩ := e
    simp only [List.map_cons, List.mem_cons, not_or] at h
    have hk : ¬ k = ws := fun hk => h.1 hk.symm
    simp [mapSet, hk, ih h.2]

theorem keys_mapDelete (clients : Clients) (ws : Nat) :
    (mapDelete clients ws).map Prod.fst = (clients.map Prod.fst).filter (fun k => decide (k ≠ ws)) := by
  induction clients with
  | nil => rfl
  | cons e rest ih =>
    unfold mapDelete at ih ⊢
    simp only [ne_eq, decide_not] at ih ⊢
    by_cases hk : e.1 = ws
    · simp [List.filter_cons, hk, ih]
    · simp [List.filter_cons, hk, ih]

theorem tryBody_keys (clients : Clients) (ws : Nat) (msg : JsVal) (clients1 : Clients)
    (out : List Out) (h : tryBody clients ws msg = some (clients1, out)) :
    clients1.map Prod.fst = clients.map Prod.fst := by
  unfold tryBody at h
  split at h
  · simp at h
  · split_ifs at h
    · split at h
      · rename_i m email hm _
        simp only [Option.some.injEq, Prod.mk.injEq] at h
        rw [← h.1]
        exact keys_mapSet_of_mem _ _ _ (mem_keys_of_mapGet _ _ _ hm)
      · simp at h
    · simp only [Option.some.injEq, Prod.mk.injEq] at h
      rw [← h.1]
    · split at h
      · simp at h
      · split_ifs at h
        · split at h
          · simp at h
          · rename_i m hm
            simp only [Option.some.injEq, Prod.mk.injEq] at h
            rw [← h.1]
            exact keys_mapSet_of_mem _ _ _ (mem_keys_of_mapGet _ _ _ hm)
        · simp only [Option.some.injEq, Prod.mk.injEq] at h
          rw [← h.1]
    · split at h
      · rename_i m ticker hm _
        simp only [Option.some.injEq, Prod.mk.injEq] at h
        rw [← h.1]
        exact keys_mapSet_of_mem _ _ _ (mem_keys_of_mapGet _ _ _ hm)
      · simp at h
    · simp only [Option.some.injEq, Prod.mk.injEq] at h
      rw [← h.1]

theorem onMessage_keys (parse : String → Option JsVal) (s : Server) (ws : Nat) (raw : String) :
    clientKeys (onMessage parse s ws raw).1 = clientKeys s := by
  unfold onMessage clientKeys
  split
  · rfl
  · split
    · rfl
    · rename_i h
      exact tryBody_keys _ _ _ _ _ h

theorem mapGet_eq_none_of_not_mem (clients : Clients) (ws : Nat)
    (h : ws ∉ clients.map Prod.fst) : mapGet clients ws = none := by
  induction clients with
  | nil => rfl
  | cons e rest ih =>
    obtain ⟨k, old⟩ := e
    simp only [List.map_cons, List.mem_cons, not_or] at h
    have hk : ¬ k = ws := fun hk => h.1 hk.symm
    simp [mapGet, hk, ih h.2]

theorem keys_onConnection (s : Server) (ws : Nat) :
    clientKeys (onConnection s ws)
      = if ws ∈ clientKeys s then clientKeys s else clientKeys s ++ [ws] := by
  unfold clientKeys onConnection
  split_ifs with h
  · exact keys_mapSet_of_mem _ _ _ h
  · exact keys_mapSet_of_not_mem _ _ _ h

theorem keys_onClose (s : Server) (ws : Nat) :
    clientKeys (onClose s ws) = (clientKeys s).filter (fun k => decide (k ≠ ws)) :=
  keys_mapDelete s.clients ws

theorem step_keys_nodup (parse : String → Option JsVal) (s : Server) (e : Event)
    (h : (clientKeys s).Nodup) : (clientKeys (step parse s e).1).Nodup := by
  cases e with
  | connection ws =>
    simp only [step, keys_onConnection]
    split_ifs with hmem
    · exact h
    · exact List.Nodup.append h (List.nodup_singleton ws) (by simpa using hmem)
  | message ws raw =>
    simp only [step, onMessage_keys]
    exact h
  | close ws =>
    simp only [step, keys_onClose]
    exact h.filter _
  | tick rand now readyState => exact h

theorem step_keeps_registered (parse : String → Option JsVal) (s : Server) (e : Event)
    (ws : Nat) (he : e ≠ .close ws) (h : ws ∈ clientKeys s) :
    ws ∈ clientKeys (step parse s e).1 := by
  cases e with
  | connection k =>
    simp only [step, keys_onConnection]
    split_ifs
    · exact h
    · exact List.mem_append_left _ h
  | message k raw =>
    simp only [step, onMessage_keys]
    exact h
  | close k =>
    simp only [step, keys_onClose, List.mem_filter]
    refine ⟨h, ?_⟩
    have hk : ws ≠ k := fun hk => he (by rw [hk])
    simpa using hk
  | tick rand now readyState => exact h

theorem step_keeps_unregistered (parse : String → Option JsVal) (s : Server) (e : Event)
    (ws : Nat) (he : e ≠ .connection ws) (h : ws ∉ clientKeys s) :
    ws ∉ clientKeys (step parse s e).1 := by
  cases e with
  | connection k =>
    simp only [step, keys_onConnection]
    have hk : ws ≠ k := fun hk => he (by rw [hk])
    split_ifs
    · exact h
    · simp [h, hk]
  | message k raw =>
    simp only [step, onMessage_keys]
    exact h
  | close k =>
    simp only [step, keys_onClose, List.mem_filter]
    exact fun hmem => h hmem.1
  | tick rand now readyState => exact h

theorem run_append (parse : String → Option JsVal) (s : Server) (es fs : List Event) :
    run parse s (es ++ fs) = run parse (run parse s es) fs := by
  simp [run, List.foldl_append]

theorem run_cons (parse : String → Option JsVal) (s : Server) (e : Event) (es : List Event) :
    run parse s (e :: es) = run parse (step parse s e).1 es := rfl

theorem run_keys_nodup (parse : String → Option JsVal) (es : List Event) (s : Server)
    (h : (clientKeys s).Nodup) : (clientKeys (run parse s es)).Nodup := by
  induction es generalizing s with
  | nil => exact h
  | cons e rest ih => exact ih _ (step_keys_nodup parse s e h)

theorem run_keeps_registered (parse : String → Option JsVal) (ws : Nat) (es : List Event)
    (s : Server) (hes : ∀ e ∈ es, e ≠ .close ws) (h : ws ∈ clientKeys s) :
    ws ∈ clientKeys (run parse s es) := by
  induction es generalizing s with
  | nil => exact h
  | cons e rest ih =>
    exact ih _ (fun x hx => hes x (List.mem_cons_of_mem _ hx))
      (step_keeps_registered parse s e ws (hes e (List.mem_cons_self _ _)) h)

theorem run_keeps_unregistered (parse : String → Option JsVal) (ws : Nat) (es : List Event)
    (s : Server) (hes : ∀ e ∈ es, e ≠ .connection ws) (h : ws ∉ clientKeys s) :
    ws ∉ clientKeys (run parse s es) := by
  induction es generalizing s with
  | nil => exact h
  | cons e rest ih =>
    exact ih _ (fun x hx => hes x (List.mem_cons_of_mem _ hx))
      (step_keeps_unregistered parse s e ws (hes e (List.mem_cons_self _ _)) h)

theorem not_mem_keys_onClose (s : Server) (ws : Nat) : ws ∉ clientKeys (onClose s ws) := by
  simp [keys_onClose, List.mem_filter]

theorem mem_keys_onConnection (s : Server) (ws : Nat) : ws ∈ clientKeys (onConnection s ws) := by
  rw [keys_onConnection]
  split_ifs with h
  · exact h
  · simp

/-- C8: in a run from the start-up state, (1) once the close handler of a
socket has run and the socket has not connected again, the socket is not in
`clients` and the next tick sends it no message; (2) once a socket has
connected and not closed, and its `readyState` is `OPEN`, the next tick sends
it exactly one message, the `price_updates` object of that tick; (3) a socket
whose `readyState` is not `OPEN` is sent nothing, and the tick sends exactly
what it would send were that socket not registered. -/
theorem delivery_count_per_tick (parse : String → Option JsVal) (rand0 rand : Nat → ℚ)
    (now : Nat → Nat) (readyState : Nat → Nat) (ws : Nat)
    (before afterClose afterOpen : List Event) (s : Server)
    (hclosed : ∀ e ∈ afterClose, e ≠ .connection ws)
    (hopen : ∀ e ∈ afterOpen, e ≠ .close ws) :
    (mapGet (run parse (init rand0) (before ++ .close ws :: afterClose)).clients ws = none ∧
        sentTo ws (tick rand now readyState
          (run parse (init rand0) (before ++ .close ws :: afterClose))).2 = 0) ∧
      (readyState ws = OPEN →
        sentTo ws (tick rand now readyState
          (run parse (init rand0) (before ++ .connection ws :: afterOpen))).2 = 1 ∧
        ∀ o ∈ (tick rand now readyState
            (run parse (init rand0) (before ++ .connection ws :: afterOpen))).2,
          o.2 = priceUpdatesMsg (tickUpdates rand now
            (run parse (init rand0) (before ++ .connection ws :: afterOpen)).prices)) ∧
      (readyState ws ≠ OPEN →
        sentTo ws (tick rand now readyState s).2 = 0 ∧
        (tick rand now readyState s).2 = (tick rand now readyState (onClose s ws)).2) := by
  refine ⟨?_, ?_, ?_⟩
  · have hnot : ws ∉ clientKeys (run parse (init rand0) (before ++ .close ws :: afterClose)) := by
      rw [run_append, run_cons]
      exact run_keeps_unregistered parse ws afterClose _ hclosed (not_mem_keys_onClose _ ws)
    refine ⟨mapGet_eq_none_of_not_mem _ _ hnot, ?_⟩
    rw [sentTo_tick]
    exact List.count_eq_zero_of_not_mem (fun h => hnot (List.mem_of_mem_filter h))
  · intro hready
    have hmem : ws ∈ clientKeys (run parse (init rand0) (before ++ .connection ws :: afterOpen)) := by
      rw [run_append, run_cons]
      exact run_keeps_registered parse ws afterOpen _ hopen (mem_keys_onConnection _ ws)
    have hnodup : (clientKeys (run parse (init rand0)
        (before ++ .connection ws :: afterOpen))).Nodup :=
      run_keys_nodup parse _ _ (by simp [clientKeys, init])
    constructor
    · rw [sentTo_tick]
      exact List.count_eq_one_of_mem (hnodup.filter _)
        (List.mem_filter.2 ⟨hmem, by simpa using hready⟩)
    · intro o ho
      simp only [tick, broadcast_eq, List.mem_map] at ho
      obtain ⟨k, _, rfl⟩ := ho
      rfl
  · intro hready
    constructor
    · rw [sentTo_tick]
      apply List.count_eq_zero_of_not_mem
      intro h
      have := (List.mem_filter.1 h).2
      simp at this
      exact hready this
    · simp only [tick, broadcast_eq]
      have hk : (onClose s ws).clients.map Prod.fst
          = (s.clients.map Prod.fst).filter (fun k => decide (k ≠ ws)) := keys_onClose s ws
      rw [hk, List.filter_filter]
      congr 2
      funext k
      by_cases hkws : k = ws
      · subst hkws
        simp [hready]
      · simp [hkws]

theorem delivery_count_per_tick_witness :
    (mapGet (run sampleParse (init (fun _ => 1 / 3))
          ([.connection 7] ++ .close 7 :: [.connection 8])).clients 7 = none ∧
        sentTo 7 (tick (fun _ => 1 / 4) (fun _ => 1700000000000) (fun _ => OPEN)
          (run sampleParse (init (fun _ => 1 / 3))
            ([.connection 7] ++ .close 7 :: [.connection 8]))).2 = 0) ∧
      sentTo 7 (tick (fun _ => 1 / 4) (fun _ => 1700000000000) (fun _ => OPEN)
        (run sampleParse (init (fun _ => 1 / 3))
          ([.connection 7] ++ .connection 7 :: [.message 7 "oops"]))).2 = 1 :=
  have h := delivery_count_per_tick sampleParse (fun _ => 1 / 3) (fun _ => 1 / 4)
    (fun _ => 1700000000000) (fun _ => OPEN) 7 [.connection 7] [.connection 8]
    [.message 7 "oops"] sampleServer (by simp) (by simp)
  ⟨h.1, (h.2.1 rfl).1⟩

/-! ## Protocol errors and identification (C9, C10) -/

/-- C9: a payload that cannot be decoded, or that decodes to a value whose
`type` is none of `login`, `get_supported`, `subscribe`, `unsubscribe`, gets
exactly one response, an `error` object (`Invalid JSON` or `Unknown message
type`), sent to the originating socket; the whole server state is unchanged, so
the session keeps its record (identity and subscription set) and stays in
`clients`. -/
theorem protocol_error_recoverable (parse : String → Option JsVal) (s : Server) (ws : Nat)
    (raw : String)
    (h : parse raw = none ∨ ∃ msg, parse raw = some msg ∧
      ∀ kind ∈ ["login", "get_supported", "subscribe", "unsubscribe"],
        getProp msg "type" ≠ some (.str kind)) :
    (∃ text, (text = "Invalid JSON" ∨ text = "Unknown message type") ∧
        onMessage parse s ws raw = (s, [(ws, errorMsg text)])) ∧
      mapGet (onMessage parse s ws raw).1.clients ws = mapGet s.clients ws ∧
      clientKeys (onMessage parse s ws raw).1 = clientKeys s := by
  have key : onMessage parse s ws raw = (s, [(ws, errorMsg "Invalid JSON")]) ∨
      onMessage parse s ws raw = (s, [(ws, errorMsg "Unknown message type")]) := by
    rcases h with h | ⟨msg, hparse, hkind⟩
    · exact Or.inl (onMessage_undecodable parse s ws raw h)
    · exact onMessage_unknown_kind parse s ws raw msg hparse hkind
  rcases key with key | key
  · exact ⟨⟨_, Or.inl rfl, key⟩, by rw [key], by rw [key]⟩
  · exact ⟨⟨_, Or.inr rfl, key⟩, by rw [key], by rw [key]⟩

theorem protocol_error_recoverable_witness :
    (∃ text, (text = "Invalid JSON" ∨ text = "Unknown message type") ∧
        onMessage sampleParse sampleServerSubscribed 7 "\x7b\"type\":\"ping\"\x7d"
          = (sampleServerSubscribed, [(7, errorMsg text)])) ∧
      mapGet (onMessage sampleParse sampleServerSubscribed 7
          "\x7b\"type\":\"ping\"\x7d").1.clients 7 = mapGet sampleServerSubscribed.clients 7 ∧
      clientKeys (onMessage sampleParse sampleServerSubscribed 7
          "\x7b\"type\":\"ping\"\x7d").1 = clientKeys sampleServerSubscribed :=
  protocol_error_recoverable sampleParse sampleServerSubscribed 7 _
    (Or.inr ⟨.obj [("type", .str "ping")], by simp [sampleParse],
      by simp [getProp, List.lookup]⟩)

/-- C10 as stated fails: on a `login` whose email is the empty string the
identity stored is `null`, not the empty string that the `login_ack` carries. -/
theorem login_identity_counterexample :
    ¬ ∀ (parse : String → Option JsVal) (s : Server) (ws : Nat) (raw : String) (msg e : JsVal)
        (m : ClientMeta), mapGet s.clients ws = some m → parse raw = some msg →
        getProp msg "type" = some (.str "login") → getProp msg "email" = some e →
        ∃ m1, mapGet (onMessage parse s ws raw).1.clients ws = some m1 ∧ m1.email = e ∧
          (onMessage parse s ws raw).2 = [(ws, loginAck e)] ∧ m1.subs = m.subs := by
  intro hall
  have hreg : mapGet sampleServer.clients 7 = some { email := .null, subs := [] } := by
    simp [sampleServer, mapGet]
  have hparse : sampleParse "\x7b\"type\":\"login\",\"email\":\"\"\x7d"
      = some (.obj [("type", .str "login"), ("email", .str "")]) := by simp [sampleParse]
  have htype : getProp (.obj [("type", .str "login"), ("email", .str "")]) "type"
      = some (.str "login") := by simp [getProp, List.lookup]
  have hemail : getProp (.obj [("type", .str "login"), ("email", .str "")]) "email"
      = some (.str "") := by simp [getProp, List.lookup]
  obtain ⟨m1, hget, hstored, _, _⟩ :=
    hall sampleParse sampleServer 7 _ _ (.str "") _ hreg hparse htype hemail
  rw [onMessage_login sampleParse sampleServer 7 _ _ (.str "") _ hreg hparse htype hemail,
    mapGet_mapSet_self] at hget
  simp only [Option.some.injEq] at hget
  rw [← hget] at hstored
  simp [jsOr, truthy] at hstored

/-- C10, amended: for a registered session and a `login` whose email reads `e`
(`undefined` when the payload has none), the `login_ack` object carries `e`
itself, the identity stored is `e` when `e` is truthy and `null` otherwise, so
the two agree whenever `e` is truthy or `null`; the subscription set is
unchanged. -/
theorem login_stores_truthy_email_and_echoes (parse : String → Option JsVal) (s : Server)
    (ws : Nat) (raw : String) (msg e : JsVal) (m : ClientMeta)
    (hreg : mapGet s.clients ws = some m) (hparse : parse raw = some msg)
    (htype : getProp msg "type" = some (.str "login"))
    (hemail : getProp msg "email" = some e) :
    (onMessage parse s ws raw).2 = [(ws, loginAck e)] ∧
      ∃ m1, mapGet (onMessage parse s ws raw).1.clients ws = some m1 ∧
        m1.email = (if truthy e then e else .null) ∧
        (truthy e = true ∨ e = .null → m1.email = e) ∧
        m1.subs = m.subs := by
  have h := onMessage_login parse s ws raw msg e m hreg hparse htype hemail
  refine ⟨by rw [h], { m with email := jsOr e .null }, ?_, rfl, ?_, rfl⟩
  · rw [h]
    exact mapGet_mapSet_self _ _ _
  · rintro (ht | rfl)
    · simp [jsOr, ht]
    · simp [jsOr, truthy]

theorem login_stores_truthy_email_and_echoes_witness :
    (onMessage sampleParse sampleServer 7
        "\x7b\"type\":\"login\",\"email\":\"ann@example.org\"\x7d").2
        = [(7, loginAck (.str "ann@example.org"))] ∧
      ∃ m1, mapGet (onMessage sampleParse sampleServer 7
          "\x7b\"type\":\"login\",\"email\":\"ann@example.org\"\x7d").1.clients 7 = some m1 ∧
        m1.email = (if truthy (.str "ann@example.org") then .str "ann@example.org" else .null) ∧
        (truthy (.str "ann@example.org") = true ∨ JsVal.str "ann@example.org" = .null →
          m1.email = .str "ann@example.org") ∧
        m1.subs = ([] : List JsVal) :=
  login_stores_truthy_email_and_echoes sampleParse sampleServer 7 _
    (.obj [("type", .str "login"), ("email", .str "ann@example.org")]) (.str "ann@example.org")
    { email := .null, subs := [] } (by simp [sampleServer, mapGet])
    (by simp [sampleParse]) (by simp [getProp, List.lookup]) (by simp [getProp, List.lookup])

/-! ## Isolation between sessions (C11) -/

theorem tryBody_other (clients : Clients) (ws : Nat) (msg : JsVal) (clients1 : Clients)
    (out : List Out) (h : tryBody clients ws msg = some (clients1, out)) :
    (∀ other, other ≠ ws → mapGet clients1 other = mapGet clients other) ∧
      ∀ o ∈ out, o.1 = ws := by
  unfold tryBody at h
  split at h
  · simp at h
  · split_ifs at h
    · split at h
      · simp only [Option.some.injEq, Prod.mk.injEq] at h
        rw [← h.1, ← h.2]
        exact ⟨fun other ho => mapGet_mapSet_other _ _ _ _ ho, by simp⟩
      · simp at h
    · simp only [Option.some.injEq, Prod.mk.injEq] at h
      rw [← h.1, ← h.2]
      exact ⟨fun _ _ => rfl, by simp⟩
    · split at h
      · simp at h
      · split_ifs at h
        · split at h
          · simp at h
          · simp only [Option.some.injEq, Prod.mk.injEq] at h
            rw [← h.1, ← h.2]
            exact ⟨fun other ho => mapGet_mapSet_other _ _ _ _ ho, by simp⟩
        · simp only [Option.some.injEq, Prod.mk.injEq] at h
          rw [← h.1, ← h.2]
          exact ⟨fun _ _ => rfl, by simp⟩
    · split at h
      · simp only [Option.some.injEq, Prod.mk.injEq] at h
        rw [← h.1, ← h.2]
        exact ⟨fun other ho => mapGet_mapSet_other _ _ _ _ ho, by simp⟩
      · simp at h
    · simp only [Option.some.injEq, Prod.mk.injEq] at h
      rw [← h.1, ← h.2]
      exact ⟨fun _ _ => rfl, by simp⟩

theorem onMessage_other (parse : String → Option JsVal) (s : Server) (ws : Nat) (raw : String) :
    (∀ other, other ≠ ws →
        mapGet (onMessage parse s ws raw).1.clients other = mapGet s.clients other) ∧
      ∀ o ∈ (onMessage parse s ws raw).2, o.1 = ws := by
  unfold onMessage
  split
  · exact ⟨fun _ _ => rfl, by simp⟩
  · split
    · exact ⟨fun _ _ => rfl, by simp⟩
    · rename_i h
      exact tryBody_other _ _ _ _ _ h

/-- C11: whatever payload the socket `a` sends, the record of any other socket
`b` (identity and subscription set) is what it was, every response goes to `a`
and none to `b`, and the price table is unchanged. -/
theorem cross_session_isolation (parse : String → Option JsVal) (s : Server) (a b : Nat)
    (raw : String) (hab : a ≠ b) :
    mapGet (onMessage parse s a raw).1.clients b = mapGet s.clients b ∧
      (∀ o ∈ (onMessage parse s a raw).2, o.1 = a) ∧
      sentTo b (onMessage parse s a raw).2 = 0 ∧
      (onMessage parse s a raw).1.prices = s.prices := by
  have h := onMessage_other parse s a raw
  refine ⟨h.1 b (Ne.symm hab), h.2, ?_, onMessage_prices parse s a raw⟩
  unfold sentTo
  rw [List.length_eq_zero, List.filter_eq_nil_iff]
  intro o ho
  have := h.2 o ho
  simp only [decide_eq_true_eq]
  omega

theorem cross_session_isolation_witness :
    mapGet (onMessage sampleParse sampleServerTwo 7
        "\x7b\"type\":\"subscribe\",\"ticker\":\"GOOG\"\x7d").1.clients 8
        = mapGet sampleServerTwo.clients 8 ∧
      (∀ o ∈ (onMessage sampleParse sampleServerTwo 7
        "\x7b\"type\":\"subscribe\",\"ticker\":\"GOOG\"\x7d").2, o.1 = 7) ∧
      sentTo 8 (onMessage sampleParse sampleServerTwo 7
        "\x7b\"type\":\"subscribe\",\"ticker\":\"GOOG\"\x7d").2 = 0 ∧
      (onMessage sampleParse sampleServerTwo 7
        "\x7b\"type\":\"subscribe\",\"ticker\":\"GOOG\"\x7d").1.prices = sampleServerTwo.prices :=
  cross_session_isolation sampleParse sampleServerTwo 7 8 _ (by decide)

/-! ## The kind of error reported (C12) -/

/-- C12, the failing input: the payload `null` is JSON, yet the handler answers
it with `Invalid JSON`, because reading `type` of `null` throws into the
`catch` block; the claim expects `Unknown message type`. -/
theorem null_payload_answered_invalid_json :
    sampleParse "null" = some JsVal.null ∧
      onMessage sampleParse sampleServer 7 "null"
        = (sampleServer, [(7, errorMsg "Invalid JSON")]) := by
  have hparse : sampleParse "null" = some JsVal.null := by simp [sampleParse]
  refine ⟨hparse, ?_⟩
  simp [onMessage, hparse, tryBody, getProp]

/-! ## The seed prices (C13) -/

theorem init_prices_supported (rand : Nat → ℚ) (i : Nat) (t : String)
    (h : SUPPORTED[i]? = some t) : (init rand).prices t = seedPrice (rand i) := by
  rcases supported_index i t h with ⟨rfl, rfl⟩ | ⟨rfl, rfl⟩ | ⟨rfl, rfl⟩ | ⟨rfl, rfl⟩ | ⟨rfl, rfl⟩ <;>
    simp [init, SUPPORTED, seedFrom, setPrice]

theorem seedPrice_near_one : seedPrice (1048575 / 1048576) = 1000 := by
  have h1 : toDouble (1048575 / 1048576 * 900) = 235929375 / 2 ^ 18 := by
    rw [toDouble_of_isDouble _ ⟨235929375, -18, by norm_num, by norm_num, by norm_num⟩]
    norm_num
  have h2 : toDouble (100 + 235929375 / 2 ^ 18) = 262143775 / 2 ^ 18 := by
    rw [toDouble_of_isDouble _ ⟨262143775, -18, by norm_num, by norm_num, by norm_num⟩]
    norm_num
  have h3 : toFixed2 (262143775 / 2 ^ 18) = 1000 := by
    unfold toFixed2
    rw [if_neg (by norm_num)]
    have hfl : ⌊(262143775 / 2 ^ 18 : ℚ) * 100 + 1 / 2⌋ = 100000 := by
      rw [Int.floor_eq_iff]
      constructor <;> norm_num
    rw [hfl]
    norm_num
  have h4 : toDouble 1000 = 1000 :=
    toDouble_of_isDouble _ (by simpa using isDouble_intCast 1000 (by norm_num))
  unfold seedPrice readFixed2
  rw [h1, h2, if_neg (by rw [abs_of_pos (by norm_num)]; norm_num), h3, h4]

/-- C13 as stated fails: the draw `1 - 2^-20`, which lies in `[0,1)`, seeds the
price `1000.00`, which is not strictly below `1000`. -/
theorem seed_range_counterexample :
    ¬ ∀ r : ℚ, 0 ≤ r → r < 1 →
      TwoDecimal (seedPrice r) ∧ 100 ≤ seedPrice r ∧ seedPrice r < 1000 := by
  intro hall
  have h := (hall (1048575 / 1048576) (by norm_num) (by norm_num)).2.2
  rw [seedPrice_near_one] at h
  exact lt_irrefl _ h

/-- C13, amended: for a draw in `[0,1)` the price seeded for ticker number `i`
of `SUPPORTED` is `round2(100 + r*900)`, a two-decimal value `n/100` (stored as
its double) in the closed range `[100, 1000]`. -/
theorem seed_price_range (rand : Nat → ℚ) (i : Nat) (t : String)
    (hi : SUPPORTED[i]? = some t) (h0 : 0 ≤ rand i) (h1 : rand i < 1) :
    (init rand).prices t = seedPrice (rand i) ∧
      (∃ n : ℤ, 10000 ≤ n ∧ n ≤ 100000 ∧ seedPrice (rand i) = toDouble ((n : ℚ) / 100)) ∧
      100 ≤ seedPrice (rand i) ∧ seedPrice (rand i) ≤ 1000 := by
  obtain ⟨n, hn1, hn2, hn, hlo, hhi⟩ := seedPrice_bounds (rand i) h0 h1
  exact ⟨init_prices_supported rand i t hi, ⟨n, hn1, hn2, hn⟩, hlo, hhi⟩

theorem seed_price_range_witness :
    (init (fun _ => 1 / 3)).prices "TSLA" = seedPrice ((fun _ => (1 / 3 : ℚ)) 1) ∧
      (∃ n : ℤ, 10000 ≤ n ∧ n ≤ 100000 ∧
        seedPrice ((fun _ => (1 / 3 : ℚ)) 1) = toDouble ((n : ℚ) / 100)) ∧
      100 ≤ seedPrice ((fun _ => (1 / 3 : ℚ)) 1) ∧ seedPrice ((fun _ => (1 / 3 : ℚ)) 1) ≤ 1000 :=
  seed_price_range (fun _ => 1 / 3) 1 "TSLA" (by simp [SUPPORTED]) (by norm_num) (by norm_num)

/-! ## The subscription sets of reachable states (C14) -/

theorem supportedSet_setAdd (subs : List JsVal) (t : JsVal) (h : SupportedSet subs)
    (ht : supportedIncludes t = true) : SupportedSet (setAdd subs t) := by
  obtain ⟨name, hname, rfl⟩ := (supportedIncludes_iff t).1 ht
  unfold setAdd
  split_ifs with hany
  · exact h
  · constructor
    · refine List.Nodup.append h.1 (List.nodup_singleton _) ?_
      intro x hx hx2
      simp only [List.mem_singleton] at hx2
      subst hx2
      exact hany (List.any_eq_true.2 ⟨_, hx, sameValueZero_str_self name⟩)
    · intro x hx
      rcases List.mem_append.1 hx with hx | hx
      · exact h.2 x hx
      · simp only [List.mem_singleton] at hx
        exact ⟨name, hname, hx⟩

theorem supportedSet_setDelete (subs : List JsVal) (t : JsVal) (h : SupportedSet subs) :
    SupportedSet (setDelete subs t) := by
  unfold setDelete
  exact ⟨h.1.filter _, fun x hx => h.2 x (List.mem_of_mem_filter hx)⟩

theorem mem_of_mapGet (clients : Clients) (ws : Nat) (m : ClientMeta)
    (h : mapGet clients ws = some m) : (ws, m) ∈ clients := by
  induction clients with
  | nil => simp [mapGet] at h
  | cons e rest ih =>
    obtain ⟨k, old⟩ := e
    by_cases hk : k = ws
    · simp only [mapGet, hk, if_true, Option.some.injEq] at h
      simp [hk, h]
    · simp only [mapGet, hk, if_false] at h
      exact List.mem_cons_of_mem _ (ih h)

theorem supportedSet_mapSet (clients : Clients) (ws : Nat) (m : ClientMeta)
    (h : ∀ e ∈ clients, SupportedSet e.2.subs) (hm : SupportedSet m.subs) :
    ∀ e ∈ mapSet clients ws m, SupportedSet e.2.subs := by
  induction clients with
  | nil =>
    intro e he
    simp only [mapSet, List.mem_singleton] at he
    rw [he]
    exact hm
  | cons c rest ih =>
    obtain ⟨k, old⟩ := c
    have hrest : ∀ e ∈ rest, SupportedSet e.2.subs :=
      fun e he => h e (List.mem_cons_of_mem _ he)
    intro e he
    unfold mapSet at he
    split_ifs at he
    · rcases List.mem_cons.1 he with he | he
      · rw [he]
        exact hm
      · exact hrest e he
    · rcases List.mem_cons.1 he with he | he
      · rw [he]
        exact h (k, old) (List.mem_cons_self _ _)
      · exact ih hrest e he

theorem tryBody_supportedSet (clients : Clients) (ws : Nat) (msg : JsVal) (clients1 : Clients)
    (out : List Out) (hgood : ∀ e ∈ clients, SupportedSet e.2.subs)
    (h : tryBody clients ws msg = some (clients1, out)) :
    ∀ e ∈ clients1, SupportedSet e.2.subs := by
  unfold tryBody at h
  split at h
  · simp at h
  · split_ifs at h
    · split at h
      · rename_i m email hm _
        simp only [Option.some.injEq, Prod.mk.injEq] at h
        rw [← h.1]
        exact supportedSet_mapSet _ _ _ hgood (hgood _ (mem_of_mapGet _ _ _ hm))
      · simp at h
    · simp only [Option.some.injEq, Prod.mk.injEq] at h
      rw [← h.1]
      exact hgood
    · split at h
      · simp at h
      · split_ifs at h with hsup
        · split at h
          · simp at h
          · rename_i m hm
            simp only [Option.some.injEq, Prod.mk.injEq] at h
            rw [← h.1]
            exact supportedSet_mapSet _ _ _ hgood
              (supportedSet_setAdd _ _ (hgood _ (mem_of_mapGet _ _ _ hm)) hsup)
        · simp only [Option.some.injEq, Prod.mk.injEq] at h
          rw [← h.1]
          exact hgood
    · split at h
      · rename_i m ticker hm _
        simp only [Option.some.injEq, Prod.mk.injEq] at h
        rw [← h.1]
        exact supportedSet_mapSet _ _ _ hgood
          (supportedSet_setDelete _ _ (hgood _ (mem_of_mapGet _ _ _ hm)))
      · simp at h
    · simp only [Option.some.injEq, Prod.mk.injEq] at h
      rw [← h.1]
      exact hgood

theorem step_supportedSet (parse : String → Option JsVal) (s : Server) (e : Event)
    (hgood : ∀ c ∈ s.clients, SupportedSet c.2.subs) :
    ∀ c ∈ (step parse s e).1.clients, SupportedSet c.2.subs := by
  cases e with
  | connection ws =>
    exact supportedSet_mapSet _ _ _ hgood ⟨List.nodup_nil, by simp⟩
  | message ws raw =>
    simp only [step]
    unfold onMessage
    split
    · exact hgood
    · split
      · exact hgood
      · rename_i h
        exact tryBody_supportedSet _ _ _ _ _ hgood h
  | close ws =>
    intro c hc
    exact hgood c (List.mem_of_mem_filter hc)
  | tick rand now readyState => exact hgood

theorem run_supportedSet (parse : String → Option JsVal) (es : List Event) (s : Server)
    (hgood : ∀ c ∈ s.clients, SupportedSet c.2.subs) :
    ∀ c ∈ (run parse s es).clients, SupportedSet c.2.subs := by
  induction es generalizing s with
  | nil => exact hgood
  | cons e rest ih => exact ih _ (step_supportedSet parse s e hgood)

theorem supportedSet_length_le (subs : List JsVal) (h : SupportedSet subs) :
    subs.length ≤ SUPPORTED.length := by
  have hsub : subs ⊆ SUPPORTED.map JsVal.str := by
    intro x hx
    obtain ⟨name, hname, rfl⟩ := h.2 x hx
    exact List.mem_map.2 ⟨name, hname, rfl⟩
  have hlen := (List.subperm_of_subset h.1 hsub).length_le
  simpa using hlen

/-- C14: a connection that opens gets the record with `null` identity and an
empty subscription set; and in every state reached from start-up by any
sequence of events (messages well-formed or not), every member of the
subscription set of every registered session is a supported ticker, no member
occurs twice, and so the set holds at most 5 tickers. -/
theorem subscriptions_within_supported (parse : String → Option JsVal) (rand0 : Nat → ℚ)
    (es : List Event) (s0 : Server) (ws0 ws : Nat) (m : ClientMeta)
    (hm : (ws, m) ∈ (run parse (init rand0) es).clients) :
    mapGet (onConnection s0 ws0).clients ws0 = some { email := .null, subs := [] } ∧
      (∀ x ∈ m.subs, ∃ name, name ∈ SUPPORTED ∧ x = .str name) ∧
      m.subs.Nodup ∧ m.subs.length ≤ 5 := by
  have hgood : SupportedSet m.subs :=
    run_supportedSet parse es (init rand0) (by simp [init]) (ws, m) hm
  exact ⟨mapGet_mapSet_self _ _ _, hgood.2, hgood.1, supportedSet_length_le _ hgood⟩

theorem subscriptions_within_supported_witness :
    mapGet (onConnection sampleServer 9).clients 9 = some { email := .null, subs := [] } ∧
      (∀ x ∈ [JsVal.str "GOOG"], ∃ name, name ∈ SUPPORTED ∧ x = .str name) ∧
      [JsVal.str "GOOG"].Nodup ∧ [JsVal.str "GOOG"].length ≤ 5 :=
  subscriptions_within_supported sampleParse (fun _ => 1 / 3)
    [.connection 7, .message 7 "\x7b\"type\":\"subscribe\",\"ticker\":\"GOOG\"\x7d"]
    sampleServer 9 7 { email := .null, subs := [.str "GOOG"] }
    (by simp [run, step, init, onConnection, mapSet, onMessage, sampleParse, tryBody, getProp,
      List.lookup, strictEqStr, supportedIncludes, SUPPORTED, sameValueZero, mapGet, setAdd])

/-! ## Bounded histories of the client (C15) -/

theorem pushLimited_length_le {α : Type} (arr : List α) (item : α) (n : Nat)
    (hlen : arr.length ≤ n) : (pushLimited arr item n).length ≤ n := by
  unfold pushLimited
  simp only [List.length_append, List.length_singleton]
  split_ifs with h
  · simp only [List.length_tail, List.length_append, List.length_singleton]
    omega
  · simp only [List.length_append, List.length_singleton]
    omega

theorem historyUpdater_bounded (tsToLabel : Nat → String) (u : PriceUpdate) (h : History)
    (hh : ∀ t, (historyOf h t).length ≤ HISTORY_LEN) :
    ∀ t, (historyOf (historyUpdater tsToLabel u h) t).length ≤ HISTORY_LEN := by
  intro t
  unfold historyOf historyUpdater
  split_ifs with ht
  · exact pushLimited_length_le _ _ _ (hh u.ticker)
  · exact hh t

theorem handlePriceUpdates_bounded (tsToLabel : Nat → String) (updates : List PriceUpdate)
    (h : History) (hh : ∀ t, (historyOf h t).length ≤ HISTORY_LEN) :
    ∀ t, (historyOf (handlePriceUpdates tsToLabel updates h) t).length ≤ HISTORY_LEN := by
  unfold handlePriceUpdates
  induction updates generalizing h with
  | nil => exact hh
  | cons u rest ih => exact ih _ (historyUpdater_bounded tsToLabel u h hh)

/-- C15: for `n ≥ 1` and a list `arr` of at most `n` elements,
`pushLimited(arr, item, n)` ends with `item`, has `min(length(arr)+1, n)`
elements and is the list of the last that many elements of `arr` followed by
`item`; and histories that hold at most `HISTORY_LEN` points per ticker still
do after any sequence of `handlePriceUpdates` calls.  The argument `arr` is a
value here, so it is not modified: the source works on the copy it builds. -/
theorem pushLimited_bounded_history {α : Type} (arr : List α) (item : α) (n : Nat)
    (hn : 1 ≤ n) (hlen : arr.length ≤ n) (tsToLabel : Nat → String)
    (batches : List (List PriceUpdate)) (h0 : History)
    (hh : ∀ t, (historyOf h0 t).length ≤ HISTORY_LEN) :
    (pushLimited arr item n).getLast? = some item ∧
      (pushLimited arr item n).length = min (arr.length + 1) n ∧
      pushLimited arr item n
        = (arr ++ [item]).drop ((arr ++ [item]).length - min (arr.length + 1) n) ∧
      ∀ t, (historyOf (batches.foldl (fun h us => handlePriceUpdates tsToLabel us h) h0)
        t).length ≤ 100 := by
  refine ⟨?_, ?_, ?_, ?_⟩
  · unfold pushLimited
    simp only [List.length_append, List.length_singleton]
    split_ifs with h
    · cases arr with
      | nil => simp at hlen h; omega
      | cons a rest => simp
    · simp
  · unfold pushLimited
    simp only [List.length_append, List.length_singleton]
    split_ifs with h
    · simp only [List.length_tail, List.length_append, List.length_singleton]
      omega
    · simp only [List.length_append, List.length_singleton]
      omega
  · unfold pushLimited
    simp only [List.length_append, List.length_singleton]
    split_ifs with h
    · have hmin : min (arr.length + 1) n = n := by omega
      have hone : arr.length + 1 - n = 1 := by omega
      rw [hmin, hone, List.drop_one]
    · have hmin : min (arr.length + 1) n = arr.length + 1 := by omega
      rw [hmin, Nat.sub_self, List.drop_zero]
  · induction batches generalizing h0 with
    | nil => exact hh
    | cons us rest ih => exact ih _ (handlePriceUpdates_bounded tsToLabel us h0 hh)

theorem pushLimited_bounded_history_witness :
    (pushLimited [1, 2, 3] 4 3).getLast? = some 4 ∧
      (pushLimited [1, 2, 3] 4 3).length = min (([1, 2, 3] : List Nat).length + 1) 3 ∧
      pushLimited [1, 2, 3] 4 3
        = (([1, 2, 3] : List Nat) ++ [4]).drop
            ((([1, 2, 3] : List Nat) ++ [4]).length - min (([1, 2, 3] : List Nat).length + 1) 3) ∧
      ∀ t, (historyOf ([[({ ticker := "GOOG", price := 101, ts := 5 } : PriceUpdate)]].foldl
        (fun h us => handlePriceUpdates (fun _ => "12:00:00") us h) (fun _ => none)) t).length
          ≤ 100 :=
  pushLimited_bounded_history [1, 2, 3] 4 3 (by decide) (by decide) (fun _ => "12:00:00")
    [[{ ticker := "GOOG", price := 101, ts := 5 }]] (fun _ => none)
    (fun _ => by simp [historyOf])

end StockDashboard
